import Mathlib

/-!
Verification of the autoload core (`src/autoload.cpp`): the bounded LRU cache
`lru_cache_impl_t` and the autoload manager `autoload_t`.

Modelling conventions:
* The intrusive circular doubly-linked recency list (anchored at the `mouth`
  sentinel) is represented by the list `nodes`, most-recently-used first:
  `mouth.next` is the head of `nodes` and `mouth.prev` is its last element.
  The sentinel itself is structural (the endpoints of the list) and therefore
  has no representation as a node; it can never be unlinked.
* The keyed index `node_set` (a `std::set` of node pointers ordered by key)
  is represented by the `Finset` of keys; `node_set.insert(node).second`
  becomes a membership test before inserting.
* Externally supplied primitives (`time`, `wstat`, `waccess`,
  `escape_string`) are fields of a `world_t` record.  Externally visible
  calls (`access_file` probes, `command_removed`, `exec_subshell`, the
  circular-dependency diagnostic) are recorded in an effect trace.
* Machine `time_t` values are modelled as `Int`; `size_t` counters as `Nat`
  (the only subtraction performed, in `evict_node`, is guarded by the
  structure invariant, so truncation never differs from the source).
-/

set_option autoImplicit false

/-- Result of probing a candidate file (`file_access_attempt_t`). -/
structure file_access_attempt_t where
  mod_time : Int
  last_checked : Int
  accessible : Bool
  stale : Bool
  error : Int
deriving DecidableEq

/-- The external world consumed by the core: the clock, the `wstat` /
`waccess` filesystem primitives and the `escape_string` collaborator
(declared in other translation units; only their interface is used here). -/
structure world_t where
  now : Int
  stat_result : String → Option Int
  stat_errno : String → Int
  access_ok : String → Nat → Bool
  access_errno : String → Int
  escape : String → String

def R_OK : Nat := 4

/-- `access_file(path, mode)`: `wstat` the path; on success record the
modification time and check `waccess`; always stamp `last_checked` with the
current time and clear `stale`. -/
def access_file (w : world_t) (path : String) (mode : Nat) : file_access_attempt_t :=
  match w.stat_result path with
  | none =>
      { mod_time := 0, last_checked := w.now, accessible := false, stale := false,
        error := w.stat_errno path }
  | some mtime =>
      if w.access_ok path mode then
        { mod_time := mtime, last_checked := w.now, accessible := true, stale := false,
          error := 0 }
      else
        { mod_time := mtime, last_checked := w.now, accessible := false, stale := false,
          error := w.access_errno path }

/-- A cache entry (`lru_node_t`): a key plus a payload.  The two intrusive
links are represented by the entry's position in `lru_cache_impl_t.nodes`. -/
structure lru_node_t (α : Type) where
  key : String
  data : α
deriving DecidableEq

/-- The bounded recency cache (`lru_cache_impl_t`).  `nodes` is the recency
list, most-recently-used first. -/
structure lru_cache_impl_t (α : Type) where
  max_node_count : Nat
  node_count : Nat
  node_set : Finset String
  nodes : List (lru_node_t α)

/-- The `lru_cache_impl_t(size)` constructor: empty index, zero count, and
the mouth hooked up to itself (an empty recency list). -/
def lru_cache_init (α : Type) (size : Nat) : lru_cache_impl_t α :=
  { max_node_count := size, node_count := 0, node_set := ∅, nodes := [] }

/-- `evict_node(condemned_node)`: unlink from the recency list, erase from
the index, decrement the count, then invoke `node_was_evicted`.  The hook
invocation is modelled by returning the evicted node; callers translate it
into their override's effects. -/
def lru_cache_impl_t.evict_node {α : Type} (c : lru_cache_impl_t α)
    (condemned : lru_node_t α) : lru_cache_impl_t α × List (lru_node_t α) :=
  ({ c with
      nodes := c.nodes.eraseP (fun m => m.key == condemned.key),
      node_set := c.node_set.erase condemned.key,
      node_count := c.node_count - 1 },
   [condemned])

/-- `evict_last_node()`: evict `mouth.prev`, the least-recently-used entry.
When the list is empty `mouth.prev` is the mouth itself and the source
asserts; that situation is unreachable from the public operations (the loops
guarding calls require `node_count > 0`, and the invariant ties the count to
the list length), and is modelled as a no-op. -/
def lru_cache_impl_t.evict_last_node {α : Type} (c : lru_cache_impl_t α) :
    lru_cache_impl_t α × List (lru_node_t α) :=
  match c.nodes.getLast? with
  | some n => c.evict_node n
  | none => (c, [])

/-- `evict_node(key)`: look the key up in the index and evict the node if
present.  The index and the list hold the same nodes (the structure
invariant), so the lookup is modelled on the list. -/
def lru_cache_impl_t.evict_node_key {α : Type} (c : lru_cache_impl_t α)
    (key : String) : Bool × lru_cache_impl_t α × List (lru_node_t α) :=
  match c.nodes.find? (fun m => m.key == key) with
  | none => (false, c, [])
  | some n =>
      let r := c.evict_node n
      (true, r.1, r.2)

/-- `promote_node(node)`: unlink the node and relink it right after the
mouth, i.e. move it to the front of the recency list. -/
def lru_cache_impl_t.promote_node {α : Type} (c : lru_cache_impl_t α)
    (n : lru_node_t α) : lru_cache_impl_t α :=
  { c with nodes := n :: c.nodes.eraseP (fun m => m.key == n.key) }

/-- `get_node(key)`: if the key is in the index, promote the node and return
it. -/
def lru_cache_impl_t.get_node {α : Type} (c : lru_cache_impl_t α) (key : String) :
    Option (lru_node_t α) × lru_cache_impl_t α :=
  match c.nodes.find? (fun m => m.key == key) with
  | none => (none, c)
  | some n => (some n, c.promote_node n)

/-- The `while (node_count > max_node_count) evict_last_node();` loop that
appears in `add_node` and (verbatim) in `add_node_without_eviction`.  The
loop is given the current `node_count` as fuel: each iteration evicts one
node, so under the structure invariant the fuel is never exhausted before
the condition turns false — the same reason the source loop terminates. -/
def lru_cache_impl_t.evict_while_full {α : Type} :
    Nat → lru_cache_impl_t α → lru_cache_impl_t α × List (lru_node_t α)
  | 0, c => (c, [])
  | fuel + 1, c =>
      if c.max_node_count < c.node_count then
        let r1 := c.evict_last_node
        let r2 := lru_cache_impl_t.evict_while_full fuel r1.1
        (r2.1, r1.2 ++ r2.2)
      else (c, [])

/-- `add_node_without_eviction(node)`: fail if the key is already indexed;
otherwise link the node right after the mouth and bump the count.  The
source function then runs the eviction loop — despite its name and the
comment at its call site. -/
def lru_cache_impl_t.add_node_without_eviction {α : Type} (c : lru_cache_impl_t α)
    (n : lru_node_t α) : Bool × lru_cache_impl_t α × List (lru_node_t α) :=
  if n.key ∈ c.node_set then (false, c, [])
  else
    let c1 : lru_cache_impl_t α :=
      { c with
          nodes := n :: c.nodes,
          node_set := insert n.key c.node_set,
          node_count := c.node_count + 1 }
    let r := lru_cache_impl_t.evict_while_full c1.node_count c1
    (true, r.1, r.2)

/-- `add_node(node)`: insert via `add_node_without_eviction`, then evict
least-recent entries while over capacity. -/
def lru_cache_impl_t.add_node {α : Type} (c : lru_cache_impl_t α)
    (n : lru_node_t α) : Bool × lru_cache_impl_t α × List (lru_node_t α) :=
  let r0 := c.add_node_without_eviction n
  if r0.1 then
    let r1 := lru_cache_impl_t.evict_while_full r0.2.1.node_count r0.2.1
    (true, r1.1, r0.2.2 ++ r1.2)
  else (false, c, [])

/-- The `while (node_count > 0) evict_last_node();` loop of
`evict_all_nodes`, fuelled like `evict_while_full`. -/
def lru_cache_impl_t.evict_all_loop {α : Type} :
    Nat → lru_cache_impl_t α → lru_cache_impl_t α × List (lru_node_t α)
  | 0, c => (c, [])
  | fuel + 1, c =>
      if 0 < c.node_count then
        let r1 := c.evict_last_node
        let r2 := lru_cache_impl_t.evict_all_loop fuel r1.1
        (r2.1, r1.2 ++ r2.2)
      else (c, [])

/-- `evict_all_nodes()`. -/
def lru_cache_impl_t.evict_all_nodes {α : Type} (c : lru_cache_impl_t α) :
    lru_cache_impl_t α × List (lru_node_t α) :=
  lru_cache_impl_t.evict_all_loop c.node_count c

/-- In-place mutation of an entry's payload through the pointer returned by
`get_node` (e.g. `func->is_loaded = true`).  Keys are unique under the
structure invariant, so mapping over the list touches exactly that node. -/
def lru_cache_impl_t.update_node {α : Type} (c : lru_cache_impl_t α)
    (key : String) (f : α → α) : lru_cache_impl_t α :=
  { c with
      nodes := c.nodes.map (fun m => if m.key == key then { m with data := f m.data } else m) }

/-- The payload currently stored for a key (a read through the index). -/
def cache_payload {α : Type} (c : lru_cache_impl_t α) (k : String) : Option α :=
  (c.nodes.find? (fun m => m.key == k)).map lru_node_t.data

/-- Structure invariant of the cache (spec §3): the count equals the size of
the index and the length of the recency list, and index and list hold
exactly the same keys, each once. -/
def lru_cache_impl_t.Inv {α : Type} (c : lru_cache_impl_t α) : Prop :=
  c.node_count = c.nodes.length ∧
  (c.nodes.map lru_node_t.key).Nodup ∧
  c.node_set = (c.nodes.map lru_node_t.key).toFinset

instance {α : Type} (c : lru_cache_impl_t α) : Decidable c.Inv := by
  unfold lru_cache_impl_t.Inv
  infer_instance

/-- A builtin script table entry (`builtin_script_t`): a name and a script
body (field `def` in the source, renamed since `def` is reserved). -/
structure builtin_script_t where
  name : String
  defn : String
deriving DecidableEq

/-- Load metadata of an autoload entry (`autoload_function_t` minus the parts
inherited from `lru_node_t`, which live in the node wrapper). -/
structure autoload_function_t where
  access : file_access_attempt_t
  is_loaded : Bool
  is_placeholder : Bool
deriving DecidableEq

/-- Modelled from the spec: the `autoload_function_t` constructor lives in the
header `autoload.h`, which is not among the sources.  Per the spec's entry
lifecycle (created on first resolution, flags flipped later), a fresh entry
starts neither loaded nor a placeholder, with a zeroed access record. -/
def autoload_function_init : autoload_function_t :=
  { access := { mod_time := 0, last_checked := 0, accessible := false, stale := false,
                error := 0 },
    is_loaded := false, is_placeholder := false }

/-- Externally visible calls made by the autoload manager, in program order. -/
inductive autoload_effect where
  | probe (path : String)
  | command_removed (name : String)
  | exec_subshell (source : String)
  | debug_circular (name : String)
deriving DecidableEq

/-- `autoload_t::node_was_evicted`: for each evicted node the override runs
`if (! node->is_loaded) command_removed(node->key); delete node;`.  (Note the
guard in the source is the negation of its own comment, which says the
notification is for nodes that were loaded.) -/
def autoload_evicted_effects (evicted : List (lru_node_t autoload_function_t)) :
    List autoload_effect :=
  evicted.filterMap fun n =>
    if !n.data.is_loaded then some (autoload_effect.command_removed n.key) else none

/-- The autoload manager (`autoload_t`): the variable naming the search path,
the borrowed builtin table, the last-observed path value, the recursion-guard
set, and the owned cache (inherited from `lru_cache_t`). -/
structure autoload_t where
  env_var_name : String
  builtin_scripts : List builtin_script_t
  path : String
  is_loading_set : List String
  cache : lru_cache_impl_t autoload_function_t

/-- The staleness debounce interval (`kAutoloadStalenessInterval`). -/
def kAutoloadStalenessInterval : Int := 1

/-- `script_name_precedes_script_name`: `wcscmp(name1, name2) < 0`, the
lexicographic order on the names' character sequences.  (Propositionally
this is `String`'s `<` — `String.lt_iff_toList_lt` — stated on the character
lists so that it evaluates.) -/
def script_name_precedes_script_name (s1 s2 : builtin_script_t) : Bool :=
  decide (s1.name.data < s2.name.data)

/-- The `std::lower_bound` call over the builtin table, by its library
contract: the index of the first element that does not precede `cmd`
(`script_name_precedes_script_name` false), or the length if none.  The
standard requires the input partitioned by that predicate, which the sorted
table guarantees. -/
def lower_bound_from (cmd : String) : List builtin_script_t → Nat
  | [] => 0
  | s :: rest =>
      if script_name_precedes_script_name s { name := cmd, defn := "" } then
        lower_bound_from cmd rest + 1
      else 0

/-- The builtin lookup of `locate_file_and_maybe_load_it`: binary-search only
when the table is nonempty, take the `lower_bound`, and accept it when it is
not the end and its name compares equal to `cmd`. -/
def find_matching_builtin (scripts : List builtin_script_t) (cmd : String) :
    Option builtin_script_t :=
  if 0 < scripts.length then
    match scripts.get? (lower_bound_from cmd scripts) with
    | some found => if found.name == cmd then some found else none
    | none => none
  else none

/-- What the path-search loop of `locate_file_and_maybe_load_it` produces:
whether an accessible file was found, the generated script source (when the
function needs loading), the `reloaded` flag, the cache after the loop, and
the trace of externally visible calls. -/
structure path_search_result where
  found_file : Bool
  script_source : Option String
  reloaded : Bool
  cache : lru_cache_impl_t autoload_function_t
  effects : List autoload_effect

/-- The `for (i = 0; i < path_list.size(); i++)` loop of
`locate_file_and_maybe_load_it`: probe `dir + "/" + cmd + ".fish"` for each
directory in order; on the first accessible candidate, re-fetch the entry,
compute `need_to_load_function`, notify `command_removed` when replacing a
loaded entry, create the entry if absent (with eviction only when
`really_load`), mark it loaded when needed, unconditionally record the access
attempt, and break. -/
def path_search (w : world_t) (cmd : String) (really_load : Bool)
    (cache : lru_cache_impl_t autoload_function_t) :
    List String → path_search_result
  | [] =>
      { found_file := false, script_source := none, reloaded := false,
        cache := cache, effects := [] }
  | next :: rest =>
      let path := next ++ "/" ++ cmd ++ ".fish"
      let access := access_file w path R_OK
      if access.accessible then
        let g := cache.get_node cmd
        let funcOpt := g.1
        let c1 := g.2
        let need_to_load_function := really_load &&
          (funcOpt.isNone
            || funcOpt.any (fun f => f.data.access.mod_time == access.mod_time)
            || funcOpt.any (fun f => !f.data.is_loaded))
        let removal_evs : List autoload_effect :=
          if need_to_load_function && funcOpt.any (fun f => f.data.is_loaded) then
            [autoload_effect.command_removed cmd]
          else []
        let c2 :=
          if need_to_load_function && funcOpt.any (fun f => f.data.is_loaded) then
            c1.update_node cmd (fun d => { d with is_placeholder := false })
          else c1
        let add_r : lru_cache_impl_t autoload_function_t × List autoload_effect :=
          if funcOpt.isNone then
            let n : lru_node_t autoload_function_t :=
              { key := cmd, data := autoload_function_init }
            if really_load then
              let r := c2.add_node n
              (r.2.1, autoload_evicted_effects r.2.2)
            else
              let r := c2.add_node_without_eviction n
              (r.2.1, autoload_evicted_effects r.2.2)
          else (c2, [])
        let c4 :=
          if need_to_load_function then
            add_r.1.update_node cmd (fun d => { d with is_loaded := true })
          else add_r.1
        let c5 := c4.update_node cmd (fun d => { d with access := access })
        { found_file := true,
          script_source :=
            if need_to_load_function then some (". " ++ w.escape path) else none,
          reloaded := need_to_load_function,
          cache := c5,
          effects := autoload_effect.probe path :: (removal_evs ++ add_r.2) }
      else
        let r := path_search w cmd really_load cache rest
        { r with effects := autoload_effect.probe path :: r.effects }

/-- The full outcome of one `locate_file_and_maybe_load_it` invocation.
`result` is the source's return value; the remaining fields expose the
internal flags (`use_cached`, `reloaded`, `found_file`, the script source)
so that theorems can speak about them. -/
structure locate_outcome where
  result : Bool
  st : autoload_t
  effects : List autoload_effect
  used_cache : Bool
  reloaded : Bool
  found_file : Bool
  script_source : Option String

/-- The cache-reuse decision of `locate_file_and_maybe_load_it` (its first,
locked block): fetch (and thereby promote) the entry; it is unusable when
absent, when stale while `allow_stale_functions` (`!reload`) is off, or when
`really_load` is requested but the entry is not loaded. -/
def locate_use_cached (st : autoload_t) (w : world_t) (cmd : String)
    (really_load reload : Bool) : Bool :=
  let allow_stale_functions := !reload
  match (st.cache.get_node cmd).1 with
  | none => false
  | some func =>
      if !allow_stale_functions
          && kAutoloadStalenessInterval < w.now - func.data.access.last_checked then
        false
      else if really_load && !func.data.is_loaded then false
      else true

/-- The remainder of `locate_file_and_maybe_load_it` once the cache-reuse
check has failed (`c0` is the cache after that check's promotion): the
builtin binary search, the path-search loop, the placeholder insertion for
misses, the subshell execution of an obtained source, and the final return
value (`reloaded` when `really_load`, else `found_file ||
has_script_source`). -/
def locate_uncached (st : autoload_t) (w : world_t) (cmd : String)
    (really_load : Bool) (c0 : lru_cache_impl_t autoload_function_t)
    (path_list : List String) : locate_outcome :=
  match find_matching_builtin st.builtin_scripts cmd with
  | some matching =>
      { result := if really_load then false else true,
        st := { st with cache := c0 },
        effects :=
          if really_load then [autoload_effect.exec_subshell matching.defn] else [],
        used_cache := false, reloaded := false, found_file := false,
        script_source := some matching.defn }
  | none =>
      let ps := path_search w cmd really_load c0 path_list
      let has_script_source := ps.script_source.isSome
      let placeholder_r : lru_cache_impl_t autoload_function_t × List autoload_effect :=
        if !ps.found_file && !has_script_source then
          let g2 := ps.cache.get_node cmd
          let create_r : lru_cache_impl_t autoload_function_t × List autoload_effect :=
            if g2.1.isNone then
              let n : lru_node_t autoload_function_t :=
                { key := cmd,
                  data := { autoload_function_init with is_placeholder := true } }
              if really_load then
                let r := g2.2.add_node n
                (r.2.1, autoload_evicted_effects r.2.2)
              else
                let r := g2.2.add_node_without_eviction n
                (r.2.1, autoload_evicted_effects r.2.2)
            else (g2.2, [])
          (create_r.1.update_node cmd
             (fun d => { d with access := { d.access with last_checked := w.now } }),
           create_r.2)
        else (ps.cache, [])
      let exec_evs : List autoload_effect :=
        if really_load && has_script_source then
          [autoload_effect.exec_subshell (ps.script_source.getD "")]
        else []
      { result := if really_load then ps.reloaded else ps.found_file || has_script_source,
        st := { st with cache := placeholder_r.1 },
        effects := ps.effects ++ placeholder_r.2 ++ exec_evs,
        used_cache := false, reloaded := ps.reloaded, found_file := ps.found_file,
        script_source := ps.script_source }

/-- `autoload_t::locate_file_and_maybe_load_it(cmd, really_load, reload,
path_list)`: the cache-reuse check (with promotion) answers from the entry's
recorded accessibility when usable; otherwise resolution continues with
`locate_uncached`. -/
def locate_file_and_maybe_load_it (st : autoload_t) (w : world_t) (cmd : String)
    (really_load reload : Bool) (path_list : List String) : locate_outcome :=
  if locate_use_cached st w cmd really_load reload then
    { result := ((st.cache.get_node cmd).1).any (fun f => f.data.access.accessible),
      st := { st with cache := (st.cache.get_node cmd).2 }, effects := [],
      used_cache := true, reloaded := false, found_file := false,
      script_source := none }
  else locate_uncached st w cmd really_load (st.cache.get_node cmd).2 path_list

/-- `autoload_t::is_loading(cmd)`: membership in the recursion-guard set. -/
def autoload_t.is_loading (st : autoload_t) (cmd : String) : Bool :=
  st.is_loading_set.contains cmd

/-- `autoload_t::load(cmd, reload)`.  `blocked` models the `CHECK_BLOCK(0)`
macro (early return 0 when the shell is blocked); `env_get` models
`env_get_string` (the empty string standing for a missing or empty variable,
both of which `env_var_t::empty()` accepts); `tokenize` models
`tokenize_variable_array2`, the path-list parsing collaborator. -/
def autoload_t.load (st : autoload_t) (w : world_t) (blocked : Bool)
    (env_get : String → String) (tokenize : String → List String)
    (cmd : String) (reload : Bool) : Int × autoload_t × List autoload_effect :=
  if blocked then (0, st, [])
  else
    let path_var := env_get st.env_var_name
    if path_var = "" then (0, st, [])
    else
      let lockstep : autoload_t × List autoload_effect :=
        if path_var ≠ st.path then
          let r := st.cache.evict_all_nodes
          ({ st with path := path_var, cache := r.1 }, autoload_evicted_effects r.2)
        else (st, [])
      let st1 := lockstep.1
      let evs1 := lockstep.2
      if st1.is_loading cmd then
        (1, st1, evs1 ++ [autoload_effect.debug_circular cmd])
      else
        let st2 := { st1 with is_loading_set := cmd :: st1.is_loading_set }
        let path_list := tokenize path_var
        let r := locate_file_and_maybe_load_it st2 w cmd true reload path_list
        let st3 := { r.st with is_loading_set := r.st.is_loading_set.erase cmd }
        (if r.result then 1 else 0, st3, evs1 ++ r.effects)

/-- `autoload_t::can_load(cmd, vars)`: a read-only existence probe.
`vars_get` models `env_vars::get` (`none` standing for a missing variable,
`some ""` for a present-but-empty one; both fail the
`!path_var_ptr || !path_var_ptr[0]` test). -/
def autoload_t.can_load (st : autoload_t) (w : world_t)
    (vars_get : String → Option String) (tokenize : String → List String)
    (cmd : String) : Bool × autoload_t × List autoload_effect :=
  match vars_get st.env_var_name with
  | none => (false, st, [])
  | some path_var =>
      if path_var = "" then (false, st, [])
      else
        let r := locate_file_and_maybe_load_it st w cmd false false (tokenize path_var)
        (r.result, r.st, r.effects)

/-- `autoload_t::unload(cmd)`: evict the named entry (the source returns the
`bool` result of `evict_node` as an `int`). -/
def autoload_t.unload (st : autoload_t) (cmd : String) :
    Bool × autoload_t × List autoload_effect :=
  let r := st.cache.evict_node_key cmd
  (r.1, { st with cache := r.2.1 }, autoload_evicted_effects r.2.2)

/-- `autoload_t::unload_all()`. -/
def autoload_t.unload_all (st : autoload_t) : autoload_t × List autoload_effect :=
  let r := st.cache.evict_all_nodes
  ({ st with cache := r.1 }, autoload_evicted_effects r.2)

/-- Spec-side helper (§4.2 step 6): the first directory whose candidate file
is accessible, together with the recorded access attempt. -/
def first_accessible_candidate (w : world_t) (cmd : String) :
    List String → Option (String × file_access_attempt_t)
  | [] => none
  | next :: rest =>
      let path := next ++ "/" ++ cmd ++ ".fish"
      let access := access_file w path R_OK
      if access.accessible then some (path, access)
      else first_accessible_candidate w cmd rest

/-- Spec-side restatement (§4.2 steps 6 and 9): in an invocation not answered
from the cache, a reload occurs exactly when no builtin matches, some
candidate file on the path is accessible, and the entry for `cmd` is absent,
not loaded, or has a modification time equal to the probed one. -/
def reload_occurs_spec (st : autoload_t) (w : world_t) (cmd : String)
    (path_list : List String) : Prop :=
  find_matching_builtin st.builtin_scripts cmd = none ∧
  ∃ p a, first_accessible_candidate w cmd path_list = some (p, a) ∧
    (cache_payload st.cache cmd = none ∨
      ∃ e, cache_payload st.cache cmd = some e ∧
        (e.access.mod_time = a.mod_time ∨ e.is_loaded = false))

/-- Spec-side restatement (§4.2 step 9): the command resolves to something —
a builtin script or an accessible file on the search path. -/
def resolves_to_something_spec (st : autoload_t) (w : world_t) (cmd : String)
    (path_list : List String) : Prop :=
  (∃ s, find_matching_builtin st.builtin_scripts cmd = some s) ∨
  (∃ p a, first_accessible_candidate w cmd path_list = some (p, a))

/-- A sequence of `add_node` calls: the final cache and all evicted nodes in
hook order. -/
def add_seq {α : Type} (c : lru_cache_impl_t α) :
    List (lru_node_t α) → lru_cache_impl_t α × List (lru_node_t α)
  | [] => (c, [])
  | n :: rest =>
      let r := c.add_node n
      let r2 := add_seq r.2.1 rest
      (r2.1, r.2.2 ++ r2.2)

/-- The intermediate caches observed after each call of a sequence of
`add_node` calls returns. -/
def add_seq_states {α : Type} (c : lru_cache_impl_t α) :
    List (lru_node_t α) → List (lru_cache_impl_t α)
  | [] => []
  | n :: rest => (c.add_node n).2.1 :: add_seq_states (c.add_node n).2.1 rest

/-- Spec-side restatement of the `need_to_load_function` condition at the
found candidate (source line 359): loading requested, and the entry is
absent, has an unchanged modification time, or is not loaded. -/
def need_to_load_spec (c : lru_cache_impl_t autoload_function_t) (cmd : String)
    (a : file_access_attempt_t) (really_load : Bool) : Bool :=
  really_load && ((cache_payload c cmd).isNone
    || (cache_payload c cmd).any (fun e => e.access.mod_time == a.mod_time)
    || (cache_payload c cmd).any (fun e => !e.is_loaded))

/-! Basic facts about `find?`, `eraseP` and the key projection. -/

theorem find?_eraseP_ne {α : Type} (l : List (lru_node_t α)) (k k' : String)
    (h : k ≠ k') :
    (l.eraseP (fun m => m.key == k)).find? (fun m => m.key == k') =
      l.find? (fun m => m.key == k') := by
  induction l with
  | nil => rfl
  | cons a rest ih =>
    by_cases ha : a.key = k
    · rw [List.eraseP_cons_of_pos (by simp [ha])]
      rw [List.find?_cons_of_neg _ (by simp [ha]; exact h)]
    · rw [List.eraseP_cons_of_neg (by simp [ha])]
      by_cases ha' : a.key = k'
      · rw [List.find?_cons_of_pos _ (by simp [ha']), List.find?_cons_of_pos _ (by simp [ha'])]
      · rw [List.find?_cons_of_neg _ (by simp [ha']), List.find?_cons_of_neg _ (by simp [ha'])]
        exact ih

theorem map_key_eraseP {α : Type} (l : List (lru_node_t α)) (k : String) :
    (l.eraseP (fun m => m.key == k)).map lru_node_t.key =
      (l.map lru_node_t.key).erase k := by
  induction l with
  | nil => rfl
  | cons a rest ih =>
    by_cases ha : a.key = k
    · rw [List.eraseP_cons_of_pos (by simp [ha])]
      simp [ha, List.erase_cons_head]
    · rw [List.eraseP_cons_of_neg (by simp [ha])]
      simp only [List.map_cons]
      rw [List.erase_cons_tail (by simp [ha]), ih]

theorem find?_none_iff_not_mem {α : Type} (l : List (lru_node_t α)) (k : String) :
    l.find? (fun m => m.key == k) = none ↔ k ∉ l.map lru_node_t.key := by
  rw [List.find?_eq_none]
  constructor
  · intro h hk
    rcases List.mem_map.mp hk with ⟨n, hn, hkey⟩
    exact h n hn (by simp [hkey])
  · intro h n hn hp
    exact h (List.mem_map.mpr ⟨n, hn, by simpa using hp⟩)

theorem find?_some_key {α : Type} {l : List (lru_node_t α)} {k : String}
    {n : lru_node_t α} (h : l.find? (fun m => m.key == k) = some n) :
    n.key = k ∧ n ∈ l :=
  ⟨by simpa using List.find?_some h, List.mem_of_find?_eq_some h⟩

theorem mem_of_getLast?_eq_some {β : Type} {l : List β} {a : β}
    (h : l.getLast? = some a) : a ∈ l := by
  induction l with
  | nil => simp at h
  | cons x xs ih =>
    cases xs with
    | nil => simp at h; simp [h]
    | cons y ys =>
      rw [List.getLast?_cons_cons] at h
      exact List.mem_cons_of_mem x (ih h)

theorem getLast?_cons_of_ne_nil {β : Type} (a : β) {l : List β} (h : l ≠ []) :
    (a :: l).getLast? = l.getLast? := by
  cases l with
  | nil => exact absurd rfl h
  | cons y ys => exact List.getLast?_cons_cons

/-! Payload reads through the index commute with the operations. -/

theorem get_node_fst {α : Type} (c : lru_cache_impl_t α) (k : String) :
    (c.get_node k).1 = c.nodes.find? (fun m => m.key == k) := by
  unfold lru_cache_impl_t.get_node
  cases c.nodes.find? (fun m => m.key == k) <;> rfl

theorem get_node_node_set {α : Type} (c : lru_cache_impl_t α) (k : String) :
    (c.get_node k).2.node_set = c.node_set := by
  unfold lru_cache_impl_t.get_node
  cases c.nodes.find? (fun m => m.key == k) <;> rfl

theorem get_node_max {α : Type} (c : lru_cache_impl_t α) (k : String) :
    (c.get_node k).2.max_node_count = c.max_node_count := by
  unfold lru_cache_impl_t.get_node
  cases c.nodes.find? (fun m => m.key == k) <;> rfl

theorem get_node_count {α : Type} (c : lru_cache_impl_t α) (k : String) :
    (c.get_node k).2.node_count = c.node_count := by
  unfold lru_cache_impl_t.get_node
  cases c.nodes.find? (fun m => m.key == k) <;> rfl

theorem cache_payload_get_node {α : Type} (c : lru_cache_impl_t α) (k k' : String) :
    cache_payload (c.get_node k).2 k' = cache_payload c k' := by
  unfold lru_cache_impl_t.get_node
  cases hf : c.nodes.find? (fun m => m.key == k) with
  | none => rfl
  | some n =>
    rcases find?_some_key hf with ⟨hk, _⟩
    unfold cache_payload lru_cache_impl_t.promote_node
    by_cases hk' : n.key = k'
    · have hkk : k' = k := by rw [← hk', hk]
      subst hkk
      rw [List.find?_cons_of_pos _ (by simp [hk']), hf]
    · rw [List.find?_cons_of_neg _ (by simp [hk'])]
      rw [find?_eraseP_ne _ _ _ hk']

theorem map_key_update {α : Type} (l : List (lru_node_t α)) (k : String) (f : α → α) :
    (l.map (fun m => if m.key == k then { m with data := f m.data } else m)).map
        lru_node_t.key = l.map lru_node_t.key := by
  induction l with
  | nil => rfl
  | cons a rest ih =>
    simp only [List.map_cons, ih]
    by_cases ha : a.key = k <;> simp [ha]

theorem find?_update_self {α : Type} (l : List (lru_node_t α)) (k : String) (f : α → α) :
    (l.map (fun m => if m.key == k then { m with data := f m.data } else m)).find?
        (fun m => m.key == k)
      = (l.find? (fun m => m.key == k)).map
          (fun n => { n with data := f n.data }) := by
  induction l with
  | nil => rfl
  | cons a rest ih =>
    by_cases ha : a.key = k
    · simp [ha]
    · simp only [List.map_cons, if_neg (by simp [ha] : ¬((a.key == k) = true))]
      rw [List.find?_cons_of_neg _ (by simp [ha]), List.find?_cons_of_neg _ (by simp [ha])]
      exact ih

theorem find?_update_other {α : Type} (l : List (lru_node_t α)) (k k' : String)
    (h : k' ≠ k) (f : α → α) :
    (l.map (fun m => if m.key == k then { m with data := f m.data } else m)).find?
        (fun m => m.key == k')
      = l.find? (fun m => m.key == k') := by
  induction l with
  | nil => rfl
  | cons a rest ih =>
    by_cases ha : a.key = k
    · simp only [List.map_cons, if_pos (by simp [ha] : (a.key == k) = true)]
      rw [List.find?_cons_of_neg _ (by simp [ha]; exact fun hc => h hc.symm),
        List.find?_cons_of_neg _ (by simp [ha]; exact fun hc => h hc.symm)]
      exact ih
    · simp only [List.map_cons, if_neg (by simp [ha] : ¬((a.key == k) = true))]
      by_cases ha' : a.key = k'
      · rw [List.find?_cons_of_pos _ (by simp [ha']), List.find?_cons_of_pos _ (by simp [ha'])]
      · rw [List.find?_cons_of_neg _ (by simp [ha']), List.find?_cons_of_neg _ (by simp [ha'])]
        exact ih

theorem cache_payload_update_self {α : Type} (c : lru_cache_impl_t α) (k : String)
    (f : α → α) :
    cache_payload (c.update_node k f) k = (cache_payload c k).map f := by
  unfold cache_payload lru_cache_impl_t.update_node
  rw [find?_update_self]
  cases c.nodes.find? (fun m => m.key == k) <;> rfl

theorem cache_payload_update_other {α : Type} (c : lru_cache_impl_t α) (k k' : String)
    (h : k' ≠ k) (f : α → α) :
    cache_payload (c.update_node k f) k' = cache_payload c k' := by
  unfold cache_payload lru_cache_impl_t.update_node
  rw [find?_update_other _ _ _ h]

/-! Preservation of the structure invariant. -/

theorem toFinset_erase_of_nodup (l : List String) (hnd : l.Nodup) (k : String) :
    (l.erase k).toFinset = l.toFinset.erase k := by
  ext a
  simp [List.mem_toFinset, hnd.mem_erase_iff, Finset.mem_erase]

theorem Inv_promote {α : Type} {c : lru_cache_impl_t α} {n : lru_node_t α}
    (hInv : c.Inv) (hkey : n.key ∈ c.nodes.map lru_node_t.key) :
    (c.promote_node n).Inv := by
  obtain ⟨hcount, hnd, hset⟩ := hInv
  have hperm : (c.nodes.map lru_node_t.key).Perm
      (n.key :: (c.nodes.map lru_node_t.key).erase n.key) :=
    List.perm_cons_erase hkey
  have hkeys : ((c.promote_node n).nodes.map lru_node_t.key) =
      n.key :: (c.nodes.map lru_node_t.key).erase n.key := by
    unfold lru_cache_impl_t.promote_node
    simp [map_key_eraseP]
  refine ⟨?_, ?_, ?_⟩
  · show c.node_count = (c.promote_node n).nodes.length
    have h1 : (c.promote_node n).nodes.length =
        ((c.promote_node n).nodes.map lru_node_t.key).length :=
      (List.length_map _ _).symm
    rw [hcount, h1, hkeys, ← hperm.length_eq, List.length_map]
  · rw [hkeys]
    exact hperm.nodup_iff.mp hnd
  · show c.node_set = _
    rw [hset, hkeys, ← List.toFinset_eq_of_perm _ _ hperm]

theorem Inv_get_node {α : Type} {c : lru_cache_impl_t α} (k : String)
    (hInv : c.Inv) : ((c.get_node k).2).Inv := by
  unfold lru_cache_impl_t.get_node
  cases hf : c.nodes.find? (fun m => m.key == k) with
  | none => exact hInv
  | some n =>
    rcases find?_some_key hf with ⟨_, hmem⟩
    exact Inv_promote hInv (List.mem_map_of_mem lru_node_t.key hmem)

theorem Inv_evict_node {α : Type} {c : lru_cache_impl_t α} {n : lru_node_t α}
    (hInv : c.Inv) (hkey : n.key ∈ c.nodes.map lru_node_t.key) :
    ((c.evict_node n).1).Inv ∧
    (c.evict_node n).1.node_count = c.node_count - 1 ∧
    (c.evict_node n).1.max_node_count = c.max_node_count := by
  obtain ⟨hcount, hnd, hset⟩ := hInv
  have hkeys : ((c.evict_node n).1.nodes.map lru_node_t.key) =
      (c.nodes.map lru_node_t.key).erase n.key := by
    unfold lru_cache_impl_t.evict_node
    simp [map_key_eraseP]
  have hlen : (c.evict_node n).1.nodes.length = c.nodes.length - 1 := by
    have h1 : ((c.evict_node n).1.nodes.map lru_node_t.key).length =
        ((c.nodes.map lru_node_t.key).erase n.key).length := by rw [hkeys]
    rw [List.length_map, List.length_erase_of_mem hkey, List.length_map] at h1
    exact h1
  refine ⟨⟨?_, ?_, ?_⟩, rfl, rfl⟩
  · show c.node_count - 1 = _
    rw [hlen, hcount]
  · rw [hkeys]
    exact hnd.erase n.key
  · show c.node_set.erase n.key = _
    rw [hset, hkeys, toFinset_erase_of_nodup _ hnd]

theorem Inv_evict_last {α : Type} {c : lru_cache_impl_t α} (hInv : c.Inv) :
    ((c.evict_last_node).1).Inv ∧
    (0 < c.node_count → (c.evict_last_node).1.node_count = c.node_count - 1) ∧
    (c.evict_last_node).1.max_node_count = c.max_node_count := by
  unfold lru_cache_impl_t.evict_last_node
  cases hl : c.nodes.getLast? with
  | none =>
    have : c.nodes = [] := by
      cases hn : c.nodes with
      | nil => rfl
      | cons x xs => rw [hn] at hl; simp [List.getLast?_eq_getLast] at hl
    refine ⟨hInv, ?_, rfl⟩
    intro hpos
    rw [hInv.1, this] at hpos
    simp at hpos
  | some n =>
    have hmem := mem_of_getLast?_eq_some hl
    have h := Inv_evict_node hInv (List.mem_map_of_mem lru_node_t.key hmem)
    exact ⟨h.1, fun _ => h.2.1, h.2.2⟩

theorem evict_while_full_spec {α : Type} :
    ∀ (fuel : Nat) (c : lru_cache_impl_t α), c.Inv →
      c.node_count ≤ fuel + c.max_node_count →
      ((lru_cache_impl_t.evict_while_full fuel c).1.Inv ∧
       (lru_cache_impl_t.evict_while_full fuel c).1.node_count =
         min c.node_count c.max_node_count ∧
       (lru_cache_impl_t.evict_while_full fuel c).1.max_node_count =
         c.max_node_count) := by
  intro fuel
  induction fuel with
  | zero =>
    intro c hInv hle
    refine ⟨hInv, ?_, rfl⟩
    show c.node_count = min c.node_count c.max_node_count
    exact (Nat.min_eq_left (by omega)).symm
  | succ fuel ih =>
    intro c hInv hle
    simp only [lru_cache_impl_t.evict_while_full]
    by_cases hfull : c.max_node_count < c.node_count
    · simp only [if_pos hfull]
      obtain ⟨hInv1, hcount1, hmax1⟩ := @Inv_evict_last α c hInv
      have hc1 : (c.evict_last_node).1.node_count = c.node_count - 1 :=
        hcount1 (by omega)
      obtain ⟨hInv2, hcount2, hmax2⟩ := ih (c.evict_last_node).1 hInv1 (by omega)
      refine ⟨hInv2, ?_, by rw [hmax2, hmax1]⟩
      rw [hcount2, hc1, hmax1, Nat.min_eq_right (by omega),
        Nat.min_eq_right (by omega)]
    · simp only [if_neg hfull]
      refine ⟨hInv, ?_, trivial⟩
      show c.node_count = min c.node_count c.max_node_count
      exact (Nat.min_eq_left (by omega)).symm

theorem evict_while_full_noop {α : Type} (fuel : Nat) (c : lru_cache_impl_t α)
    (h : c.node_count ≤ c.max_node_count) :
    lru_cache_impl_t.evict_while_full fuel c = (c, []) := by
  cases fuel with
  | zero => rfl
  | succ fuel => simp [lru_cache_impl_t.evict_while_full, Nat.not_lt.mpr h]

theorem evict_while_full_cons {α : Type} :
    ∀ (fuel : Nat) (c : lru_cache_impl_t α) (n : lru_node_t α)
      (t : List (lru_node_t α)), c.Inv → 0 < c.max_node_count → c.nodes = n :: t →
      ((∃ t2, (lru_cache_impl_t.evict_while_full fuel c).1.nodes = n :: t2 ∧
          t2.Sublist t) ∧
       (∀ m ∈ (lru_cache_impl_t.evict_while_full fuel c).2, m ∈ t)) := by
  intro fuel
  induction fuel with
  | zero =>
    intro c n t hInv hmax hnodes
    simp only [lru_cache_impl_t.evict_while_full]
    exact ⟨⟨t, hnodes, List.Sublist.refl t⟩, by simp⟩
  | succ fuel ih =>
    intro c n t hInv hmax hnodes
    simp only [lru_cache_impl_t.evict_while_full]
    by_cases hfull : c.max_node_count < c.node_count
    · simp only [if_pos hfull]
      have htne : t ≠ [] := by
        intro ht
        rw [ht] at hnodes
        have := hInv.1
        rw [hnodes] at this
        simp at this
        omega
      have hlast : c.nodes.getLast? = t.getLast? := by
        rw [hnodes, getLast?_cons_of_ne_nil n htne]
      cases hlt : t.getLast? with
      | none =>
        cases t with
        | nil => exact absurd rfl htne
        | cons y ys => simp [List.getLast?_eq_getLast] at hlt
      | some last =>
        have hlastmem : last ∈ t := mem_of_getLast?_eq_some hlt
        have hkeyne : n.key ≠ last.key := by
          intro he
          have hnd := hInv.2.1
          rw [hnodes] at hnd
          simp only [List.map_cons, List.nodup_cons] at hnd
          exact hnd.1 (he ▸ List.mem_map_of_mem lru_node_t.key hlastmem)
        have hev : c.evict_last_node = c.evict_node last := by
          unfold lru_cache_impl_t.evict_last_node
          rw [hlast, hlt]
        have hnodes1 : (c.evict_node last).1.nodes =
            n :: t.eraseP (fun m => m.key == last.key) := by
          unfold lru_cache_impl_t.evict_node
          simp only [hnodes]
          rw [List.eraseP_cons_of_neg (by simp [hkeyne])]
        have hInv1 : ((c.evict_node last).1).Inv :=
          (Inv_evict_node hInv (by
            rw [hnodes]
            exact List.mem_map_of_mem lru_node_t.key (List.mem_cons_of_mem n hlastmem))).1
        have hmax1 : 0 < (c.evict_node last).1.max_node_count := hmax
        obtain ⟨⟨t2, ht2, ht2sub⟩, hevmem⟩ :=
          ih (c.evict_node last).1 n (t.eraseP (fun m => m.key == last.key))
            hInv1 hmax1 hnodes1
        rw [hev]
        refine ⟨⟨t2, ht2, ht2sub.trans (List.eraseP_sublist t)⟩, ?_⟩
        intro m hm
        simp only [lru_cache_impl_t.evict_node, List.mem_append] at hm
        rcases hm with hm | hm
        · simp at hm
          exact hm ▸ hlastmem
        · exact (List.eraseP_sublist t).subset (hevmem m hm)
    · simp only [if_neg hfull]
      exact ⟨⟨t, hnodes, List.Sublist.refl t⟩, by simp⟩

theorem add_node_without_eviction_dup {α : Type} (c : lru_cache_impl_t α)
    (n : lru_node_t α) (h : n.key ∈ c.node_set) :
    c.add_node_without_eviction n = (false, c, []) := by
  unfold lru_cache_impl_t.add_node_without_eviction
  rw [if_pos h]

theorem add_node_without_eviction_inv {α : Type} (c : lru_cache_impl_t α)
    (n : lru_node_t α) (hInv : c.Inv) :
    ((c.add_node_without_eviction n).2.1).Inv ∧
    (c.add_node_without_eviction n).2.1.node_count =
      (if n.key ∈ c.node_set then c.node_count
       else min (c.node_count + 1) c.max_node_count) ∧
    (c.add_node_without_eviction n).2.1.max_node_count = c.max_node_count := by
  by_cases hdup : n.key ∈ c.node_set
  · rw [add_node_without_eviction_dup c n hdup, if_pos hdup]
    exact ⟨hInv, rfl, rfl⟩
  · obtain ⟨hcount, hnd, hset⟩ := hInv
    have hfresh : n.key ∉ c.nodes.map lru_node_t.key := by
      rw [hset] at hdup
      exact fun hmem => hdup (List.mem_toFinset.mpr hmem)
    have hInv1 : ({ c with
        nodes := n :: c.nodes,
        node_set := insert n.key c.node_set,
        node_count := c.node_count + 1 } : lru_cache_impl_t α).Inv := by
      refine ⟨by simp [hcount], by simp [hnd, hfresh], ?_⟩
      show insert n.key c.node_set = _
      rw [hset]
      simp
    unfold lru_cache_impl_t.add_node_without_eviction
    rw [if_neg hdup]
    obtain ⟨hInv2, hcount2, hmax2⟩ :=
      evict_while_full_spec (c.node_count + 1)
        ({ c with
            nodes := n :: c.nodes,
            node_set := insert n.key c.node_set,
            node_count := c.node_count + 1 }) hInv1 (by simp)
    rw [if_neg hdup]
    exact ⟨hInv2, hcount2, hmax2⟩

theorem add_node_eq {α : Type} (c : lru_cache_impl_t α) (n : lru_node_t α)
    (hInv : c.Inv) : c.add_node n = c.add_node_without_eviction n := by
  have h := add_node_without_eviction_inv c n hInv
  unfold lru_cache_impl_t.add_node
  by_cases hdup : n.key ∈ c.node_set
  · rw [add_node_without_eviction_dup c n hdup]
    rfl
  · have hok : (c.add_node_without_eviction n).1 = true := by
      unfold lru_cache_impl_t.add_node_without_eviction
      rw [if_neg hdup]
    have hle : (c.add_node_without_eviction n).2.1.node_count ≤
        (c.add_node_without_eviction n).2.1.max_node_count := by
      rw [h.2.2, h.2.1, if_neg hdup]
      exact Nat.min_le_right _ _
    simp only [hok, if_true, evict_while_full_noop _ _ hle, List.append_nil]
    rw [← hok]

theorem Inv_add_node {α : Type} (c : lru_cache_impl_t α) (n : lru_node_t α)
    (hInv : c.Inv) : ((c.add_node n).2.1).Inv := by
  rw [add_node_eq c n hInv]
  exact (add_node_without_eviction_inv c n hInv).1

theorem Inv_evict_node_key {α : Type} (c : lru_cache_impl_t α) (k : String)
    (hInv : c.Inv) : ((c.evict_node_key k).2.1).Inv := by
  unfold lru_cache_impl_t.evict_node_key
  cases hf : c.nodes.find? (fun m => m.key == k) with
  | none => exact hInv
  | some n =>
    rcases find?_some_key hf with ⟨_, hmem⟩
    exact (Inv_evict_node hInv (List.mem_map_of_mem lru_node_t.key hmem)).1

theorem Inv_update {α : Type} (c : lru_cache_impl_t α) (k : String) (f : α → α)
    (hInv : c.Inv) : (c.update_node k f).Inv := by
  obtain ⟨h1, h2, h3⟩ := hInv
  unfold lru_cache_impl_t.update_node
  refine ⟨?_, ?_, ?_⟩
  · show c.node_count = _
    rw [h1, List.length_map]
  · show (List.map lru_node_t.key (List.map _ c.nodes)).Nodup
    rw [map_key_update]
    exact h2
  · show c.node_set = _
    rw [map_key_update]
    exact h3

theorem Inv_evict_all_loop {α : Type} :
    ∀ (fuel : Nat) (c : lru_cache_impl_t α), c.Inv →
      ((lru_cache_impl_t.evict_all_loop fuel c).1).Inv := by
  intro fuel
  induction fuel with
  | zero => intro c hInv; exact hInv
  | succ fuel ih =>
    intro c hInv
    simp only [lru_cache_impl_t.evict_all_loop]
    by_cases hpos : 0 < c.node_count
    · simp only [if_pos hpos]
      exact ih _ (Inv_evict_last hInv).1
    · simp only [if_neg hpos]
      exact hInv

theorem evict_all_loop_node_set_sub {α : Type} :
    ∀ (fuel : Nat) (c : lru_cache_impl_t α),
      (lru_cache_impl_t.evict_all_loop fuel c).1.node_set ⊆ c.node_set := by
  intro fuel
  induction fuel with
  | zero => intro c; exact Finset.Subset.refl _
  | succ fuel ih =>
    intro c
    simp only [lru_cache_impl_t.evict_all_loop]
    by_cases hpos : 0 < c.node_count
    · simp only [if_pos hpos]
      refine (ih _).trans ?_
      unfold lru_cache_impl_t.evict_last_node
      cases c.nodes.getLast? with
      | none => exact Finset.Subset.refl _
      | some n => exact Finset.erase_subset _ _
    · simp only [if_neg hpos]
      exact Finset.Subset.refl _

theorem Inv_evict_all {α : Type} (c : lru_cache_impl_t α) (hInv : c.Inv) :
    ((c.evict_all_nodes).1).Inv :=
  Inv_evict_all_loop c.node_count c hInv

theorem evict_all_node_set_sub {α : Type} (c : lru_cache_impl_t α) :
    (c.evict_all_nodes).1.node_set ⊆ c.node_set :=
  evict_all_loop_node_set_sub c.node_count c

theorem add_node_capacity {α : Type} (c : lru_cache_impl_t α) (n : lru_node_t α)
    (hInv : c.Inv) (hcap : c.node_count ≤ c.max_node_count) :
    ((c.add_node n).2.1).Inv ∧
    (c.add_node n).2.1.node_count ≤ (c.add_node n).2.1.max_node_count := by
  rw [add_node_eq c n hInv]
  obtain ⟨hInv1, hcount1, hmax1⟩ := add_node_without_eviction_inv c n hInv
  refine ⟨hInv1, ?_⟩
  rw [hcount1, hmax1]
  by_cases hdup : n.key ∈ c.node_set
  · rw [if_pos hdup]; exact hcap
  · rw [if_neg hdup]; exact Nat.min_le_right _ _

theorem add_seq_states_capacity {α : Type} :
    ∀ (ns : List (lru_node_t α)) (c : lru_cache_impl_t α), c.Inv →
      c.node_count ≤ c.max_node_count →
      ∀ s ∈ add_seq_states c ns, s.node_count ≤ s.max_node_count := by
  intro ns
  induction ns with
  | nil => intro c _ _ s hs; simp [add_seq_states] at hs
  | cons n rest ih =>
    intro c hInv hcap s hs
    obtain ⟨hInv1, hcap1⟩ := add_node_capacity c n hInv hcap
    simp only [add_seq_states, List.mem_cons] at hs
    rcases hs with hs | hs
    · rw [hs]; exact hcap1
    · exact ih _ hInv1 hcap1 s hs

theorem evict_while_full_step {α : Type} (fuel : Nat) (c : lru_cache_impl_t α)
    (hfull : c.max_node_count < c.node_count) :
    lru_cache_impl_t.evict_while_full (fuel + 1) c =
      ((lru_cache_impl_t.evict_while_full fuel (c.evict_last_node).1).1,
       (c.evict_last_node).2 ++
         (lru_cache_impl_t.evict_while_full fuel (c.evict_last_node).1).2) := by
  simp only [lru_cache_impl_t.evict_while_full, if_pos hfull]

theorem evict_last_node_eq {α : Type} (c : lru_cache_impl_t α) {last : lru_node_t α}
    (hlast : c.nodes.getLast? = some last) : c.evict_last_node = c.evict_node last := by
  unfold lru_cache_impl_t.evict_last_node
  rw [hlast]

theorem add_node_fresh_no_evict {α : Type} (c : lru_cache_impl_t α)
    (n : lru_node_t α) (hInv : c.Inv) (hfresh : n.key ∉ c.node_set)
    (hcap : c.node_count + 1 ≤ c.max_node_count) :
    c.add_node n =
      (true,
       { c with
          nodes := n :: c.nodes,
          node_set := insert n.key c.node_set,
          node_count := c.node_count + 1 }, []) := by
  rw [add_node_eq c n hInv]
  simp only [lru_cache_impl_t.add_node_without_eviction, if_neg hfresh]
  rw [evict_while_full_noop _ _
    (show ({ c with
        nodes := n :: c.nodes,
        node_set := insert n.key c.node_set,
        node_count := c.node_count + 1 } : lru_cache_impl_t α).node_count ≤ _ from hcap)]

theorem add_node_at_capacity {α : Type} (c : lru_cache_impl_t α)
    (n last : lru_node_t α) (hInv : c.Inv)
    (hfull : c.node_count = c.max_node_count) (hfresh : n.key ∉ c.node_set)
    (hlast : (n :: c.nodes).getLast? = some last) :
    (c.add_node n).2.2 = [last] := by
  rw [add_node_eq c n hInv]
  simp only [lru_cache_impl_t.add_node_without_eviction, if_neg hfresh]
  rw [evict_while_full_step _ _
    (show ({ c with
        nodes := n :: c.nodes,
        node_set := insert n.key c.node_set,
        node_count := c.node_count + 1 } : lru_cache_impl_t α).max_node_count <
      ({ c with
        nodes := n :: c.nodes,
        node_set := insert n.key c.node_set,
        node_count := c.node_count + 1 } : lru_cache_impl_t α).node_count by
      show c.max_node_count < c.node_count + 1
      omega)]
  rw [evict_last_node_eq _ (show ({ c with
      nodes := n :: c.nodes,
      node_set := insert n.key c.node_set,
      node_count := c.node_count + 1 } : lru_cache_impl_t α).nodes.getLast? = some last
    from hlast)]
  rw [evict_while_full_noop _ _ (by
    show c.node_count + 1 - 1 ≤ c.max_node_count
    omega)]
  simp [lru_cache_impl_t.evict_node]

theorem Inv_add_seq {α : Type} :
    ∀ (ns : List (lru_node_t α)) (c : lru_cache_impl_t α), c.Inv →
      ((add_seq c ns).1).Inv := by
  intro ns
  induction ns with
  | nil => intro c hInv; exact hInv
  | cons n rest ih =>
    intro c hInv
    exact ih _ (Inv_add_node c n hInv)

theorem add_seq_append {α : Type} :
    ∀ (l1 l2 : List (lru_node_t α)) (c : lru_cache_impl_t α),
      add_seq c (l1 ++ l2) =
        ((add_seq (add_seq c l1).1 l2).1,
         (add_seq c l1).2 ++ (add_seq (add_seq c l1).1 l2).2) := by
  intro l1
  induction l1 with
  | nil => intro l2 c; simp [add_seq]
  | cons n rest ih =>
    intro l2 c
    simp only [List.cons_append, add_seq]
    rw [show rest.append l2 = rest ++ l2 from rfl, ih l2 (c.add_node n).2.1]
    simp [List.append_assoc]

theorem add_seq_fill {α : Type} :
    ∀ (ns : List (lru_node_t α)) (c : lru_cache_impl_t α), c.Inv →
      (ns.map lru_node_t.key).Nodup →
      (∀ n ∈ ns, n.key ∉ c.node_set) →
      c.node_count + ns.length ≤ c.max_node_count →
      ((add_seq c ns).1.nodes = ns.reverse ++ c.nodes ∧
       (add_seq c ns).1.node_set = c.node_set ∪ (ns.map lru_node_t.key).toFinset ∧
       (add_seq c ns).1.node_count = c.node_count + ns.length ∧
       (add_seq c ns).1.max_node_count = c.max_node_count ∧
       (add_seq c ns).2 = []) := by
  intro ns
  induction ns with
  | nil =>
    intro c hInv hnd hfresh hcap
    exact ⟨by simp [add_seq], by simp [add_seq], by simp [add_seq],
      by simp [add_seq], by simp [add_seq]⟩
  | cons n rest ih =>
    intro c hInv hnd hfresh hcap
    have hstep := add_node_fresh_no_evict c n hInv (hfresh n (by simp))
      (by simp at hcap; omega)
    have hInv1 : ((c.add_node n).2.1).Inv := Inv_add_node c n hInv
    have hnd1 : (rest.map lru_node_t.key).Nodup := by
      simp only [List.map_cons, List.nodup_cons] at hnd
      exact hnd.2
    have hfresh1 : ∀ m ∈ rest, m.key ∉ (c.add_node n).2.1.node_set := by
      intro m hm
      rw [hstep]
      simp only [Finset.mem_insert, not_or]
      constructor
      · simp only [List.map_cons, List.nodup_cons] at hnd
        exact fun he => hnd.1 (he ▸ List.mem_map_of_mem lru_node_t.key hm)
      · exact hfresh m (List.mem_cons_of_mem n hm)
    have hcap1 : (c.add_node n).2.1.node_count + rest.length ≤
        (c.add_node n).2.1.max_node_count := by
      rw [hstep]
      show c.node_count + 1 + rest.length ≤ c.max_node_count
      simp at hcap
      omega
    obtain ⟨hn1, hn2, hn3, hn4, hn5⟩ := ih (c.add_node n).2.1 hInv1 hnd1 hfresh1 hcap1
    refine ⟨?_, ?_, ?_, ?_, ?_⟩
    · show (add_seq (c.add_node n).2.1 rest).1.nodes = _
      rw [hn1, hstep]
      show rest.reverse ++ n :: c.nodes = (n :: rest).reverse ++ c.nodes
      simp
    · show (add_seq (c.add_node n).2.1 rest).1.node_set = _
      rw [hn2, hstep]
      show insert n.key c.node_set ∪ (rest.map lru_node_t.key).toFinset = _
      simp only [List.map_cons, List.toFinset_cons]
      rw [Finset.insert_union, Finset.union_insert]
    · show (add_seq (c.add_node n).2.1 rest).1.node_count = _
      rw [hn3, hstep]
      show c.node_count + 1 + rest.length = c.node_count + (n :: rest).length
      simp
      omega
    · show (add_seq (c.add_node n).2.1 rest).1.max_node_count = _
      rw [hn4, hstep]
    · show (c.add_node n).2.2 ++ (add_seq (c.add_node n).2.1 rest).2 = []
      rw [hn5, hstep]
      simp

theorem Inv_init {α : Type} (size : Nat) : (lru_cache_init α size).Inv :=
  ⟨rfl, List.nodup_nil, rfl⟩

theorem find_matching_builtin_cons_lt (x : builtin_script_t)
    (rest : List builtin_script_t) (cmd : String) (hlt : x.name < cmd)
    (hne : rest ≠ []) :
    find_matching_builtin (x :: rest) cmd = find_matching_builtin rest cmd := by
  unfold find_matching_builtin
  rw [if_pos (by simp), if_pos (by simpa using List.length_pos.mpr hne)]
  rw [show lower_bound_from cmd (x :: rest) = lower_bound_from cmd rest + 1 by
    simp only [lower_bound_from, script_name_precedes_script_name]
    rw [if_pos (by
      simp only [decide_eq_true_eq]
      exact String.lt_iff_toList_lt.mp hlt)]]
  rfl

theorem find_matching_builtin_correct :
    ∀ (scripts : List builtin_script_t) (cmd : String),
      (scripts.map builtin_script_t.name).Sorted (· ≤ ·) →
      (∃ s ∈ scripts, s.name = cmd) →
      ∃ s', find_matching_builtin scripts cmd = some s' ∧ s'.name = cmd ∧
        s' ∈ scripts := by
  intro scripts
  induction scripts with
  | nil =>
    intro cmd _ hex
    rcases hex with ⟨s, hs, _⟩
    simp at hs
  | cons x rest ih =>
    intro cmd hsorted hex
    by_cases hlt : x.name < cmd
    · have hxne : x.name ≠ cmd := ne_of_lt hlt
      have hex' : ∃ s ∈ rest, s.name = cmd := by
        rcases hex with ⟨s, hs, hname⟩
        rcases List.mem_cons.mp hs with h | h
        · exact absurd (h ▸ hname) hxne
        · exact ⟨s, h, hname⟩
      have hne : rest ≠ [] := by
        rcases hex' with ⟨s, hs, _⟩
        exact List.ne_nil_of_mem hs
      have hsorted' : (rest.map builtin_script_t.name).Sorted (· ≤ ·) := by
        simp only [List.map_cons, List.sorted_cons] at hsorted
        exact hsorted.2
      obtain ⟨s', hfind, hname', hmem'⟩ := ih cmd hsorted' hex'
      exact ⟨s', by rw [find_matching_builtin_cons_lt x rest cmd hlt hne]; exact hfind,
        hname', List.mem_cons_of_mem x hmem'⟩
    · have hxeq : x.name = cmd := by
        rcases hex with ⟨s, hs, hname⟩
        rcases List.mem_cons.mp hs with h | h
        · rw [← h]; exact hname
        · have hle : x.name ≤ s.name := by
            simp only [List.map_cons, List.sorted_cons] at hsorted
            exact hsorted.1 s.name (List.mem_map_of_mem builtin_script_t.name h)
          exact le_antisymm (hname ▸ hle) (not_lt.mp hlt)
      refine ⟨x, ?_, hxeq, List.mem_cons_self x rest⟩
      unfold find_matching_builtin
      rw [if_pos (by simp)]
      rw [show lower_bound_from cmd (x :: rest) = 0 by
        simp only [lower_bound_from, script_name_precedes_script_name]
        rw [if_neg (by
          simp only [decide_eq_true_eq]
          exact fun hc => hlt (String.lt_iff_toList_lt.mpr hc))]]
      simp [hxeq]

/-- Claim C6: after every mutating cache operation returns, `node_count`
equals the size of the keyed index and the length of the recency list (the
sentinel, being the structural anchor of the list, is never removed), every
indexed key appears exactly once in the recency list and vice versa, and for
all sequences of insertions the count stays within `max_node_count` after
each call returns. -/
theorem C6_cache_invariants {α : Type} (c : lru_cache_impl_t α) (hInv : c.Inv) :
    (c.node_count = c.nodes.length ∧
     c.node_count = c.node_set.card ∧
     (∀ k, k ∈ c.node_set ↔ k ∈ c.nodes.map lru_node_t.key) ∧
     (∀ k, k ∈ c.node_set → (c.nodes.map lru_node_t.key).count k = 1)) ∧
    (∀ n, ((c.add_node n).2.1).Inv) ∧
    (∀ n, ((c.add_node_without_eviction n).2.1).Inv) ∧
    (∀ k, ((c.evict_node_key k).2.1).Inv) ∧
    ((c.evict_last_node).1).Inv ∧
    ((c.evict_all_nodes).1).Inv ∧
    (∀ k, ((c.get_node k).2).Inv) ∧
    (∀ k f, ((c.update_node k f)).Inv) ∧
    (c.node_count ≤ c.max_node_count →
      ∀ ns s, s ∈ add_seq_states c ns → s.node_count ≤ s.max_node_count) := by
  refine ⟨⟨hInv.1, ?_, ?_, ?_⟩, fun n => Inv_add_node c n hInv,
    fun n => (add_node_without_eviction_inv c n hInv).1,
    fun k => Inv_evict_node_key c k hInv,
    (Inv_evict_last hInv).1,
    Inv_evict_all c hInv,
    fun k => Inv_get_node k hInv,
    fun k f => Inv_update c k f hInv,
    fun hcap ns s hs => add_seq_states_capacity ns c hInv hcap s hs⟩
  · rw [hInv.2.2, List.toFinset_card_of_nodup hInv.2.1, List.length_map]
    exact hInv.1
  · intro k
    rw [hInv.2.2]
    exact List.mem_toFinset
  · intro k hk
    refine List.count_eq_one_of_mem hInv.2.1 ?_
    rw [hInv.2.2] at hk
    exact List.mem_toFinset.mp hk

/-- Claim C6 witness: the invariant theorem applied to a concrete one-entry
cache. -/
theorem C6_cache_invariants_witness :
    ((⟨2, 1, {"a"}, [⟨"a", ()⟩]⟩ : lru_cache_impl_t Unit)).Inv ∧
    (((⟨2, 1, {"a"}, [⟨"a", ()⟩]⟩ : lru_cache_impl_t Unit)).add_node
      ⟨"b", ()⟩).2.1.Inv :=
  ⟨by decide, (C6_cache_invariants _ (by decide)).2.1 ⟨"b", ()⟩⟩

/-- Claim C7: the cache evicts in strict LRU order: `get_node` moves a
present entry to the most-recently-used position (the front of the recency
list, returning that entry), a capacity-triggered eviction removes exactly
the least-recently-used entry (the last of the recency list, so an entry
promoted by a lookup is never evicted before a less recently used one), and
over a sequence of N+1 insertions of pairwise distinct keys into an empty
cache of capacity N, the first-inserted entry is the only one ever evicted,
at the point of the (N+1)-th insertion (the first N insertions evict
nothing). -/
theorem C7_lru_eviction_order {α : Type} :
    (∀ (c : lru_cache_impl_t α) (k : String) (n : lru_node_t α),
        c.nodes.find? (fun m => m.key == k) = some n →
        (c.get_node k).1 = some n ∧
        (c.get_node k).2.nodes = n :: c.nodes.eraseP (fun m => m.key == k)) ∧
    (∀ (c : lru_cache_impl_t α) (n last : lru_node_t α), c.Inv →
        c.node_count = c.max_node_count → n.key ∉ c.node_set →
        (n :: c.nodes).getLast? = some last →
        (c.add_node n).2.2 = [last]) ∧
    (∀ (N : Nat) (ns : List (lru_node_t α)) (n0 : lru_node_t α),
        (ns.map lru_node_t.key).Nodup → ns.length = N + 1 → ns.head? = some n0 →
        (add_seq (lru_cache_init α N) ns.dropLast).2 = [] ∧
        (add_seq (lru_cache_init α N) ns).2 = [n0]) := by
  refine ⟨?_, ?_, ?_⟩
  · intro c k n hf
    rcases find?_some_key hf with ⟨hk, _⟩
    unfold lru_cache_impl_t.get_node lru_cache_impl_t.promote_node
    simp only [hf]
    rw [hk]
    exact ⟨trivial, rfl⟩
  · intro c n last hInv hfull hfresh hlast
    exact add_node_at_capacity c n last hInv hfull hfresh hlast
  · intro N ns n0 hnd hlen hhead
    have hne : ns ≠ [] := by intro h; rw [h] at hlen; simp at hlen
    have hsplit : ns.dropLast ++ [ns.getLast hne] = ns :=
      List.dropLast_append_getLast hne
    have hdllen : ns.dropLast.length = N := by
      rw [List.length_dropLast, hlen]
      omega
    have hkeys : ns.map lru_node_t.key =
        ns.dropLast.map lru_node_t.key ++ [(ns.getLast hne).key] := by
      conv_lhs => rw [← hsplit]
      simp
    have hnd2 : (ns.dropLast.map lru_node_t.key).Nodup ∧
        (ns.getLast hne).key ∉ ns.dropLast.map lru_node_t.key := by
      rw [hkeys, List.nodup_append] at hnd
      exact ⟨hnd.1, fun hmem => hnd.2.2 hmem (by simp)⟩
    obtain ⟨hfn, hfs, hfc, hfm, hfe⟩ := add_seq_fill ns.dropLast
      (lru_cache_init α N) (Inv_init N) hnd2.1
      (by intro m hm; simp [lru_cache_init])
      (by simp [lru_cache_init, hdllen])
    refine ⟨hfe, ?_⟩
    conv_lhs => rw [← hsplit]
    rw [add_seq_append, hfe]
    simp only [List.nil_append]
    simp only [add_seq, List.append_nil]
    have hlast2 : ((ns.getLast hne) ::
        (add_seq (lru_cache_init α N) ns.dropLast).1.nodes).getLast? = some n0 := by
      rw [hfn, show (lru_cache_init α N).nodes = [] from rfl, List.append_nil]
      rw [show (ns.getLast hne) :: ns.dropLast.reverse = ns.reverse by
        conv_rhs => rw [← hsplit]
        simp]
      rw [List.getLast?_reverse]
      exact hhead
    exact add_node_at_capacity _ _ _ (Inv_add_seq _ _ (Inv_init N))
      (by rw [hfc, hfm]; simp [lru_cache_init, hdllen])
      (by
        rw [hfs, show (lru_cache_init α N).node_set = ∅ from rfl,
          Finset.empty_union]
        intro hmem
        exact hnd2.2 (List.mem_toFinset.mp hmem)) hlast2

/-- Claim C7 witness: the spec's end-to-end example (capacity 2; insert "a",
"b", "c") via the theorem: "a" is evicted, exactly once, at the third
insertion. -/
theorem C7_lru_eviction_order_witness :
    (add_seq (lru_cache_init Unit 2)
        [⟨"a", ()⟩, ⟨"b", ()⟩, ⟨"c", ()⟩]).2 = [⟨"a", ()⟩] :=
  ((@C7_lru_eviction_order Unit).2.2 2 [⟨"a", ()⟩, ⟨"b", ()⟩, ⟨"c", ()⟩]
    ⟨"a", ()⟩ (by decide) (by decide) (by decide)).2

/-- Claim C1 (code bug evaluation): evicting a loaded entry ("f", with
`is_loaded = true`) does not invoke `command_removed`, while evicting a
never-loaded entry ("g", with `is_loaded = false`) does — the guard in
`autoload_t::node_was_evicted` is `! node->is_loaded`, the negation of the
claim and of the comment directly above it in the source ("Tell ourselves
that the command was removed if it was loaded"). -/
theorem C1_eviction_hook_evaluation :
    (autoload_t.unload
        ⟨"fish_function_path", [], "p", [],
          ⟨8, 1, {"f"},
            [⟨"f", ⟨⟨5, 10, true, false, 0⟩, true, false⟩⟩]⟩⟩ "f").2.2 = [] ∧
    (autoload_t.unload
        ⟨"fish_function_path", [], "p", [],
          ⟨8, 1, {"g"},
            [⟨"g", ⟨⟨5, 10, true, false, 0⟩, false, false⟩⟩]⟩⟩ "g").2.2 =
      [autoload_effect.command_removed "g"] := by
  constructor <;> rfl

/-- Claim C2 (code bug evaluation): `add_node_without_eviction` of a fresh
key "b" into a full capacity-1 cache holding "a" returns true but runs the
eviction loop: "a" is evicted (the hook fires on it) and is no longer
present afterwards. -/
theorem C2_add_without_eviction_evaluation :
    (((⟨1, 1, {"a"}, [⟨"a", ()⟩]⟩ : lru_cache_impl_t Unit)).add_node_without_eviction
        ⟨"b", ()⟩).1 = true ∧
    (((⟨1, 1, {"a"}, [⟨"a", ()⟩]⟩ : lru_cache_impl_t Unit)).add_node_without_eviction
        ⟨"b", ()⟩).2.2 = [⟨"a", ()⟩] ∧
    "a" ∉ (((⟨1, 1, {"a"}, [⟨"a", ()⟩]⟩ : lru_cache_impl_t Unit)).add_node_without_eviction
        ⟨"b", ()⟩).2.1.node_set := by
  decide

/-- Claim C3 counterexample: an unknown command ("foo", no builtin, no file)
resolved twice with `really_load = true` at the very same instant (well
within the staleness interval) probes the filesystem in both invocations:
the placeholder is not usable for a loading resolution (`really_load && !
is_loaded`), so the total is two probes, not at most one. -/
theorem C3_counterexample :
    ((locate_file_and_maybe_load_it
          ⟨"fish_function_path", [], "p", [], ⟨8, 0, ∅, []⟩⟩
          ⟨100, fun _ => none, fun _ => 2, fun _ _ => false, fun _ => 13,
            fun s => s⟩
          "foo" true false ["d"]).effects ++
        (locate_file_and_maybe_load_it
          (locate_file_and_maybe_load_it
            ⟨"fish_function_path", [], "p", [], ⟨8, 0, ∅, []⟩⟩
            ⟨100, fun _ => none, fun _ => 2, fun _ _ => false, fun _ => 13,
              fun s => s⟩
            "foo" true false ["d"]).st
          ⟨100, fun _ => none, fun _ => 2, fun _ _ => false, fun _ => 13,
            fun s => s⟩
          "foo" true false ["d"]).effects).count
      (autoload_effect.probe "d/foo.fish") = 2 := by
  decide

theorem locate_uncached_used_cache (st : autoload_t) (w : world_t) (cmd : String)
    (rl : Bool) (c0 : lru_cache_impl_t autoload_function_t) (pl : List String) :
    (locate_uncached st w cmd rl c0 pl).used_cache = false := by
  unfold locate_uncached
  cases find_matching_builtin st.builtin_scripts cmd <;> rfl

theorem locate_dispatch_cached (st : autoload_t) (w : world_t) (cmd : String)
    (rl reload : Bool) (pl : List String)
    (h : locate_use_cached st w cmd rl reload = true) :
    locate_file_and_maybe_load_it st w cmd rl reload pl =
      { result := ((st.cache.get_node cmd).1).any (fun f => f.data.access.accessible),
        st := { st with cache := (st.cache.get_node cmd).2 }, effects := [],
        used_cache := true, reloaded := false, found_file := false,
        script_source := none } := by
  unfold locate_file_and_maybe_load_it
  rw [if_pos h]

theorem locate_dispatch_uncached (st : autoload_t) (w : world_t) (cmd : String)
    (rl reload : Bool) (pl : List String)
    (h : (locate_file_and_maybe_load_it st w cmd rl reload pl).used_cache = false) :
    locate_file_and_maybe_load_it st w cmd rl reload pl =
      locate_uncached st w cmd rl (st.cache.get_node cmd).2 pl := by
  unfold locate_file_and_maybe_load_it at h ⊢
  by_cases hu : locate_use_cached st w cmd rl reload = true
  · rw [if_pos hu] at h
    simp at h
  · rw [if_neg hu]

/-- A probing resolution (`really_load = false`, `reload = false`) of a
command that has any cache entry is always answered from the cache: staleness
is forgiven (`allow_stale_functions`) and the loaded check is skipped. -/
theorem locate_probe_cached (st : autoload_t) (w : world_t) (cmd : String)
    (pl : List String) (n : lru_node_t autoload_function_t)
    (hf : st.cache.nodes.find? (fun m => m.key == cmd) = some n) :
    (locate_file_and_maybe_load_it st w cmd false false pl).effects = [] ∧
    (locate_file_and_maybe_load_it st w cmd false false pl).result =
      n.data.access.accessible := by
  have hu : locate_use_cached st w cmd false false = true := by
    unfold locate_use_cached
    rw [get_node_fst, hf]
    simp
  rw [locate_dispatch_cached st w cmd false false pl hu]
  refine ⟨rfl, ?_⟩
  show ((st.cache.get_node cmd).1).any _ = _
  rw [get_node_fst, hf]
  rfl

theorem need_to_load_eq (c : lru_cache_impl_t autoload_function_t) (cmd : String)
    (a : file_access_attempt_t) (rl : Bool) :
    (rl && (((c.get_node cmd).1).isNone
      || ((c.get_node cmd).1).any (fun f => f.data.access.mod_time == a.mod_time)
      || ((c.get_node cmd).1).any (fun f => !f.data.is_loaded)))
    = need_to_load_spec c cmd a rl := by
  unfold need_to_load_spec cache_payload
  rw [get_node_fst]
  cases c.nodes.find? (fun m => m.key == cmd) <;> simp [Option.any]

theorem need_to_load_spec_get_node (c : lru_cache_impl_t autoload_function_t)
    (k cmd : String) (a : file_access_attempt_t) (rl : Bool) :
    need_to_load_spec (c.get_node k).2 cmd a rl = need_to_load_spec c cmd a rl := by
  unfold need_to_load_spec
  rw [cache_payload_get_node]

theorem path_search_not_found (w : world_t) (cmd : String) (rl : Bool)
    (c : lru_cache_impl_t autoload_function_t) :
    ∀ (pl : List String), first_accessible_candidate w cmd pl = none →
      path_search w cmd rl c pl =
        { found_file := false, script_source := none, reloaded := false,
          cache := c,
          effects := pl.map
            (fun d => autoload_effect.probe (d ++ "/" ++ cmd ++ ".fish")) } := by
  intro pl
  induction pl with
  | nil => intro _; rfl
  | cons next rest ih =>
    intro hfa
    by_cases hacc : (access_file w (next ++ "/" ++ cmd ++ ".fish") R_OK).accessible = true
    · simp only [first_accessible_candidate] at hfa
      rw [if_pos hacc] at hfa
      simp at hfa
    · have hfa' : first_accessible_candidate w cmd rest = none := by
        simp only [first_accessible_candidate] at hfa
        rwa [if_neg hacc] at hfa
      simp only [path_search]
      rw [if_neg hacc, ih hfa']
      rfl

theorem path_search_found (w : world_t) (cmd : String) (rl : Bool)
    (c : lru_cache_impl_t autoload_function_t) :
    ∀ (pl : List String) (p : String) (a : file_access_attempt_t),
      first_accessible_candidate w cmd pl = some (p, a) →
      ((path_search w cmd rl c pl).found_file = true ∧
       (path_search w cmd rl c pl).reloaded = need_to_load_spec c cmd a rl ∧
       (path_search w cmd rl c pl).script_source =
         (if need_to_load_spec c cmd a rl = true
          then some (". " ++ w.escape p) else none)) := by
  intro pl
  induction pl with
  | nil => intro p a hfa; simp [first_accessible_candidate] at hfa
  | cons next rest ih =>
    intro p a hfa
    by_cases hacc : (access_file w (next ++ "/" ++ cmd ++ ".fish") R_OK).accessible = true
    · simp only [first_accessible_candidate] at hfa
      rw [if_pos hacc] at hfa
      simp only [Option.some.injEq, Prod.mk.injEq] at hfa
      obtain ⟨hp, ha⟩ := hfa
      subst hp
      subst ha
      simp only [path_search]
      rw [if_pos hacc]
      dsimp only
      refine ⟨rfl, ?_, ?_⟩ <;> rw [need_to_load_eq]
    · have hfa' : first_accessible_candidate w cmd rest = some (p, a) := by
        simp only [first_accessible_candidate] at hfa
        rwa [if_neg hacc] at hfa
      obtain ⟨h1, h2, h3⟩ := ih p a hfa'
      simp only [path_search]
      rw [if_neg hacc]
      exact ⟨h1, h2, h3⟩

/-- Claim C4 (amended): the claimed return-value semantics holds for every
invocation that is not answered by the cache-reuse short-circuit: with
`really_load` the call returns true exactly when a reload occurred (no
builtin matched, some candidate file was accessible, and the
`need_to_load_function` condition held for the entry), and with
`really_load = false` it returns true exactly when the command resolves to
something (builtin or accessible file).  When the short-circuit is taken the
call instead returns the entry's recorded accessibility (see the
counterexample). -/
theorem C4_return_value_semantics (st : autoload_t) (w : world_t) (cmd : String)
    (really_load reload : Bool) (pl : List String)
    (h : (locate_file_and_maybe_load_it st w cmd really_load reload pl).used_cache
      = false) :
    (really_load = true →
      ((locate_file_and_maybe_load_it st w cmd really_load reload pl).result = true ↔
        reload_occurs_spec st w cmd pl)) ∧
    (really_load = false →
      ((locate_file_and_maybe_load_it st w cmd really_load reload pl).result = true ↔
        resolves_to_something_spec st w cmd pl)) := by
  rw [locate_dispatch_uncached st w cmd really_load reload pl h]
  unfold locate_uncached
  cases hb : find_matching_builtin st.builtin_scripts cmd with
  | some s =>
    constructor
    · intro hrl
      subst hrl
      show false = true ↔ _
      constructor
      · intro hfalse
        exact absurd hfalse (by simp)
      · rintro ⟨h1, _⟩
        rw [hb] at h1
        exact Option.noConfusion h1
    · intro hrl
      subst hrl
      show true = true ↔ _
      constructor
      · intro _
        exact Or.inl ⟨s, hb⟩
      · intro _
        rfl
  | none =>
    cases hfa : first_accessible_candidate w cmd pl with
    | none =>
      have hps := path_search_not_found w cmd really_load
        (st.cache.get_node cmd).2 pl hfa
      constructor
      · intro hrl
        subst hrl
        show (path_search w cmd true (st.cache.get_node cmd).2 pl).reloaded = true ↔ _
        rw [hps]
        constructor
        · intro hfalse
          exact absurd hfalse (by simp)
        · rintro ⟨_, p', a', hfa', _⟩
          rw [hfa] at hfa'
          exact Option.noConfusion hfa'
      · intro hrl
        subst hrl
        show ((path_search w cmd false (st.cache.get_node cmd).2 pl).found_file
            || (path_search w cmd false (st.cache.get_node cmd).2 pl).script_source.isSome)
            = true ↔ _
        rw [hps]
        constructor
        · intro hfalse
          exact absurd hfalse (by simp)
        · rintro (⟨s, hs⟩ | ⟨p', a', hfa'⟩)
          · rw [hb] at hs
            exact Option.noConfusion hs
          · rw [hfa] at hfa'
            exact Option.noConfusion hfa'
    | some pa =>
      obtain ⟨p, a⟩ := pa
      obtain ⟨h1, h2, h3⟩ := path_search_found w cmd really_load
        (st.cache.get_node cmd).2 pl p a hfa
      constructor
      · intro hrl
        subst hrl
        show (path_search w cmd true (st.cache.get_node cmd).2 pl).reloaded = true ↔ _
        rw [h2, need_to_load_spec_get_node]
        constructor
        · intro hX
          refine ⟨hb, p, a, hfa, ?_⟩
          cases he : cache_payload st.cache cmd with
          | none => exact Or.inl rfl
          | some e =>
            refine Or.inr ⟨e, rfl, ?_⟩
            unfold need_to_load_spec at hX
            rw [he] at hX
            simpa [Option.any] using hX
        · rintro ⟨_, p', a', hfa', hcond⟩
          rw [hfa] at hfa'
          simp only [Option.some.injEq, Prod.mk.injEq] at hfa'
          obtain ⟨hp', ha'⟩ := hfa'
          subst ha'
          rcases hcond with he | ⟨e, he, hdisj⟩
          · unfold need_to_load_spec
            rw [he]
            rfl
          · unfold need_to_load_spec
            rw [he]
            rcases hdisj with hmod | hload
            · simp [Option.any, hmod]
            · simp [Option.any, hload]
      · intro hrl
        subst hrl
        show ((path_search w cmd false (st.cache.get_node cmd).2 pl).found_file
            || (path_search w cmd false (st.cache.get_node cmd).2 pl).script_source.isSome)
            = true ↔ _
        rw [h1]
        constructor
        · intro _
          exact Or.inr ⟨p, a, hfa⟩
        · intro _
          rfl

/-- Claim C4 counterexample: with `really_load = true`, a command whose
entry is loaded, fresh and recorded accessible is answered from the cache:
the call returns true although no reload occurred during the invocation (no
script was executed, no effect at all was produced, and the internal
`reloaded` flag stayed false) — so "returns true iff a reload actually
occurred" is false as stated. -/
theorem C4_counterexample :
    (locate_file_and_maybe_load_it
        ⟨"fish_function_path", [], "p", [],
          ⟨8, 1, {"f"}, [⟨"f", ⟨⟨5, 100, true, false, 0⟩, true, false⟩⟩]⟩⟩
        ⟨100, fun _ => none, fun _ => 2, fun _ _ => false, fun _ => 13,
          fun s => s⟩
        "f" true false ["d"]).result = true ∧
    (locate_file_and_maybe_load_it
        ⟨"fish_function_path", [], "p", [],
          ⟨8, 1, {"f"}, [⟨"f", ⟨⟨5, 100, true, false, 0⟩, true, false⟩⟩]⟩⟩
        ⟨100, fun _ => none, fun _ => 2, fun _ _ => false, fun _ => 13,
          fun s => s⟩
        "f" true false ["d"]).reloaded = false ∧
    (locate_file_and_maybe_load_it
        ⟨"fish_function_path", [], "p", [],
          ⟨8, 1, {"f"}, [⟨"f", ⟨⟨5, 100, true, false, 0⟩, true, false⟩⟩]⟩⟩
        ⟨100, fun _ => none, fun _ => 2, fun _ _ => false, fun _ => 13,
          fun s => s⟩
        "f" true false ["d"]).effects = [] := by
  decide

/-- Claim C4 witness: the amended theorem applied to a concrete probing
resolution of a builtin-backed command with an empty cache. -/
theorem C4_return_value_semantics_witness :
    ((locate_file_and_maybe_load_it
        ⟨"fish_function_path", [⟨"f", "body"⟩], "p", [], ⟨8, 0, ∅, []⟩⟩
        ⟨100, fun _ => none, fun _ => 2, fun _ _ => false, fun _ => 13,
          fun s => s⟩
        "f" false false ["d"]).result = true ↔
      resolves_to_something_spec
        ⟨"fish_function_path", [⟨"f", "body"⟩], "p", [], ⟨8, 0, ∅, []⟩⟩
        ⟨100, fun _ => none, fun _ => 2, fun _ _ => false, fun _ => 13,
          fun s => s⟩
        "f" ["d"]) :=
  (C4_return_value_semantics
    ⟨"fish_function_path", [⟨"f", "body"⟩], "p", [], ⟨8, 0, ∅, []⟩⟩
    ⟨100, fun _ => none, fun _ => 2, fun _ _ => false, fun _ => 13,
      fun s => s⟩
    "f" false false ["d"] (by decide)).2 rfl

/-- Claim C9: under the sortedness precondition on the builtin table, a
command with a matching builtin entry resolves from that builtin's script
body (it becomes the script source, executed when `really_load`), with no
filesystem probe at all and no file-branch resolution — regardless of the
filesystem contents, hence regardless of whether a matching file also exists
on the search path. -/
theorem C9_builtin_precedence (st : autoload_t) (w : world_t) (cmd : String)
    (really_load reload : Bool) (pl : List String) (s : builtin_script_t)
    (hsorted : (st.builtin_scripts.map builtin_script_t.name).Sorted (· ≤ ·))
    (hmem : s ∈ st.builtin_scripts) (hname : s.name = cmd)
    (h : (locate_file_and_maybe_load_it st w cmd really_load reload pl).used_cache
      = false) :
    ∃ s2, s2 ∈ st.builtin_scripts ∧ s2.name = cmd ∧
      (locate_file_and_maybe_load_it st w cmd really_load reload pl).script_source
        = some s2.defn ∧
      (locate_file_and_maybe_load_it st w cmd really_load reload pl).effects
        = (if really_load then [autoload_effect.exec_subshell s2.defn] else []) ∧
      (locate_file_and_maybe_load_it st w cmd really_load reload pl).found_file
        = false := by
  obtain ⟨s2, hfind, hname2, hmem2⟩ :=
    find_matching_builtin_correct st.builtin_scripts cmd hsorted ⟨s, hmem, hname⟩
  rw [locate_dispatch_uncached st w cmd really_load reload pl h]
  unfold locate_uncached
  rw [hfind]
  exact ⟨s2, hmem2, hname2, rfl, rfl, rfl⟩

/-- Claim C9 witness: the precedence theorem applied to a concrete sorted
two-entry builtin table and a filesystem where the candidate file exists and
is accessible. -/
theorem C9_builtin_precedence_witness :
    ∃ s2, s2 ∈ [(⟨"f", "fbody"⟩ : builtin_script_t), ⟨"g", "gbody"⟩] ∧
      s2.name = "f" ∧
      (locate_file_and_maybe_load_it
          ⟨"fish_function_path", [⟨"f", "fbody"⟩, ⟨"g", "gbody"⟩], "p", [],
            ⟨8, 0, ∅, []⟩⟩
          ⟨100, fun _ => some 7, fun _ => 2, fun _ _ => true, fun _ => 13,
            fun s => s⟩
          "f" true false ["d"]).script_source = some s2.defn ∧
      (locate_file_and_maybe_load_it
          ⟨"fish_function_path", [⟨"f", "fbody"⟩, ⟨"g", "gbody"⟩], "p", [],
            ⟨8, 0, ∅, []⟩⟩
          ⟨100, fun _ => some 7, fun _ => 2, fun _ _ => true, fun _ => 13,
            fun s => s⟩
          "f" true false ["d"]).effects =
        (if true then [autoload_effect.exec_subshell s2.defn] else []) ∧
      (locate_file_and_maybe_load_it
          ⟨"fish_function_path", [⟨"f", "fbody"⟩, ⟨"g", "gbody"⟩], "p", [],
            ⟨8, 0, ∅, []⟩⟩
          ⟨100, fun _ => some 7, fun _ => 2, fun _ _ => true, fun _ => 13,
            fun s => s⟩
          "f" true false ["d"]).found_file = false :=
  C9_builtin_precedence
    ⟨"fish_function_path", [⟨"f", "fbody"⟩, ⟨"g", "gbody"⟩], "p", [],
      ⟨8, 0, ∅, []⟩⟩
    ⟨100, fun _ => some 7, fun _ => 2, fun _ _ => true, fun _ => 13,
      fun s => s⟩
    "f" true false ["d"] ⟨"f", "fbody"⟩
    (by
      simp only [List.map_cons, List.map_nil, List.sorted_cons, List.mem_singleton,
        List.mem_cons, List.not_mem_nil, List.sorted_singleton]
      refine ⟨fun b hb => ?_, ?_⟩
      · rcases hb with rfl | hfalse
        · exact le_of_lt (String.lt_iff_toList_lt.mpr (by decide))
        · exact absurd hfalse (by simp)
      · simp)
    (by simp) rfl (by decide)

theorem get_node_none_snd {α : Type} (c : lru_cache_impl_t α) (k : String)
    (hf : c.nodes.find? (fun m => m.key == k) = none) : (c.get_node k).2 = c := by
  unfold lru_cache_impl_t.get_node
  rw [hf]

theorem mem_autoload_evicted_effects {l : List (lru_node_t autoload_function_t)}
    {x : autoload_effect} (hx : x ∈ autoload_evicted_effects l) :
    ∃ n, n ∈ l ∧ x = autoload_effect.command_removed n.key := by
  unfold autoload_evicted_effects at hx
  rcases List.mem_filterMap.mp hx with ⟨n, hn, hfn⟩
  by_cases hl : (!n.data.is_loaded) = true
  · rw [if_pos hl] at hfn
    exact ⟨n, hn, (Option.some.inj hfn).symm⟩
  · rw [if_neg hl] at hfn
    exact Option.noConfusion hfn

theorem Inv_insert_front {α : Type} (c : lru_cache_impl_t α) (n : lru_node_t α)
    (hInv : c.Inv) (hfresh : n.key ∉ c.node_set) :
    ({ c with
        nodes := n :: c.nodes,
        node_set := insert n.key c.node_set,
        node_count := c.node_count + 1 } : lru_cache_impl_t α).Inv := by
  obtain ⟨hcount, hnd, hset⟩ := hInv
  have hfresh2 : n.key ∉ c.nodes.map lru_node_t.key := by
    rw [hset] at hfresh
    exact fun hmem => hfresh (List.mem_toFinset.mpr hmem)
  refine ⟨by simp [hcount], by simp [hnd, hfresh2], ?_⟩
  show insert n.key c.node_set = _
  rw [hset]
  simp

theorem add_without_eviction_fresh {α : Type} (c : lru_cache_impl_t α)
    (n : lru_node_t α) (hInv : c.Inv) (hfresh : n.key ∉ c.node_set)
    (hmax : 0 < c.max_node_count) :
    (∃ t2, (c.add_node_without_eviction n).2.1.nodes = n :: t2 ∧
      t2.Sublist c.nodes) ∧
    (∀ m ∈ (c.add_node_without_eviction n).2.2, m ∈ c.nodes) := by
  simp only [lru_cache_impl_t.add_node_without_eviction, if_neg hfresh]
  exact evict_while_full_cons (c.node_count + 1) _ n c.nodes
    (Inv_insert_front c n hInv hfresh) hmax rfl

theorem add_without_eviction_fresh_payload {α : Type} (c : lru_cache_impl_t α)
    (n : lru_node_t α) (hInv : c.Inv) (hfresh : n.key ∉ c.node_set)
    (hmax : 0 < c.max_node_count) :
    cache_payload (c.add_node_without_eviction n).2.1 n.key = some n.data := by
  obtain ⟨⟨t2, ht2, _⟩, _⟩ := add_without_eviction_fresh c n hInv hfresh hmax
  unfold cache_payload
  rw [ht2, List.find?_cons_of_pos _ (by simp)]
  rfl

theorem add_node_fresh_facts {α : Type} (c : lru_cache_impl_t α)
    (n : lru_node_t α) (hInv : c.Inv) (hfresh : n.key ∉ c.node_set)
    (hmax : 0 < c.max_node_count) :
    (∃ t2, (c.add_node n).2.1.nodes = n :: t2 ∧ t2.Sublist c.nodes) ∧
    (∀ m ∈ (c.add_node n).2.2, m ∈ c.nodes) := by
  rw [add_node_eq c n hInv]
  exact add_without_eviction_fresh c n hInv hfresh hmax

theorem payload_some_find? {α : Type} {c : lru_cache_impl_t α} {k : String}
    {d : α} (h : cache_payload c k = some d) :
    ∃ n, c.nodes.find? (fun m => m.key == k) = some n ∧ n.data = d := by
  unfold cache_payload at h
  cases hf : c.nodes.find? (fun m => m.key == k) with
  | none => rw [hf] at h; exact Option.noConfusion h
  | some n => rw [hf] at h; exact ⟨n, rfl, Option.some.inj h⟩

theorem payload_none_find? {α : Type} {c : lru_cache_impl_t α} {k : String}
    (h : cache_payload c k = none) :
    c.nodes.find? (fun m => m.key == k) = none := by
  unfold cache_payload at h
  cases hf : c.nodes.find? (fun m => m.key == k) with
  | none => rfl
  | some n => rw [hf] at h; exact Option.noConfusion h

theorem path_search_no_cmd_removal (w : world_t) (cmd : String) (rl : Bool) :
    ∀ (pl : List String) (c : lru_cache_impl_t autoload_function_t)
      (p : String) (a : file_access_attempt_t),
      c.Inv → 0 < c.max_node_count →
      first_accessible_candidate w cmd pl = some (p, a) →
      need_to_load_spec c cmd a rl = false →
      autoload_effect.command_removed cmd ∉ (path_search w cmd rl c pl).effects := by
  intro pl
  induction pl with
  | nil =>
    intro c p a _ _ hfa _
    simp [first_accessible_candidate] at hfa
  | cons next rest ih =>
    intro c p a hInv hmax hfa hneed
    by_cases hacc : (access_file w (next ++ "/" ++ cmd ++ ".fish") R_OK).accessible = true
    · simp only [first_accessible_candidate] at hfa
      rw [if_pos hacc] at hfa
      simp only [Option.some.injEq, Prod.mk.injEq] at hfa
      obtain ⟨hp, ha⟩ := hfa
      subst hp
      subst ha
      simp only [path_search]
      rw [if_pos hacc]
      dsimp only
      rw [get_node_fst]
      cases hfo : c.nodes.find? (fun m => m.key == cmd) with
      | some nn =>
        have hneed3 : (rl && ((some nn).isNone
            || (some nn).any (fun f => f.data.access.mod_time ==
                (access_file w (next ++ "/" ++ cmd ++ ".fish") R_OK).mod_time)
            || (some nn).any (fun f => !f.data.is_loaded))) = false := by
          rw [← hfo, ← get_node_fst, need_to_load_eq]
          exact hneed
        rw [hneed3]
        simp
      | none =>
        have hrl : rl = false := by
          have hneed3 : (rl && ((none : Option (lru_node_t autoload_function_t)).isNone
              || (none : Option (lru_node_t autoload_function_t)).any
                  (fun f => f.data.access.mod_time ==
                    (access_file w (next ++ "/" ++ cmd ++ ".fish") R_OK).mod_time)
              || (none : Option (lru_node_t autoload_function_t)).any
                  (fun f => !f.data.is_loaded))) = false := by
            rw [← hfo, ← get_node_fst, need_to_load_eq]
            exact hneed
          simpa using hneed3
        subst hrl
        simp only [Option.isNone_none, Bool.false_and, Bool.true_or, Bool.or_true,
          Bool.and_false, Bool.false_or, if_neg, if_pos, Bool.not_false]
        rw [get_node_none_snd c cmd hfo]
        have hfresh : cmd ∉ c.node_set := by
          rw [hInv.2.2]
          intro hmem
          exact (find?_none_iff_not_mem c.nodes cmd).mp hfo (List.mem_toFinset.mp hmem)
        intro hmem
        simp only [List.mem_cons, List.mem_append] at hmem
        rcases hmem with hmem | hmem
        · exact autoload_effect.noConfusion hmem
        · rcases hmem with hmem | hmem
          · simp at hmem
          · obtain ⟨m, hm, hx⟩ := mem_autoload_evicted_effects hmem
            have hmc : m ∈ c.nodes :=
              (add_without_eviction_fresh c ⟨cmd, autoload_function_init⟩ hInv
                hfresh hmax).2 m hm
            have : m.key = cmd := by
              have := autoload_effect.command_removed.inj hx
              exact this.symm
            exact (find?_none_iff_not_mem c.nodes cmd).mp hfo
              (this ▸ List.mem_map_of_mem lru_node_t.key hmc)
    · have hfa' : first_accessible_candidate w cmd rest = some (p, a) := by
        simp only [first_accessible_candidate] at hfa
        rwa [if_neg hacc] at hfa
      have hrec := ih c p a hInv hmax hfa' hneed
      simp only [path_search]
      rw [if_neg hacc]
      intro hmem
      simp only [List.mem_cons] at hmem
      rcases hmem with hmem | hmem
      · exact autoload_effect.noConfusion hmem
      · exact hrec hmem

/-- Claim C5: in the path-search branch, once an accessible candidate file
has been found for `cmd` (path `p`, recorded access attempt `a`), the script
body is (re)loaded exactly when `really_load` holds and (no cache entry
exists, or the entry's `is_loaded` flag is false, or the entry's recorded
modification time equals the newly probed one); and when this condition is
false, no reload happens and no `command_removed cmd` unregistration call is
made by the invocation. -/
theorem C5_reload_condition (st : autoload_t) (w : world_t) (cmd : String)
    (really_load reload : Bool) (pl : List String) (p : String)
    (a : file_access_attempt_t)
    (hInv : st.cache.Inv) (hmax : 0 < st.cache.max_node_count)
    (h : (locate_file_and_maybe_load_it st w cmd really_load reload pl).used_cache
      = false)
    (hb : find_matching_builtin st.builtin_scripts cmd = none)
    (hfa : first_accessible_candidate w cmd pl = some (p, a)) :
    (locate_file_and_maybe_load_it st w cmd really_load reload pl).reloaded =
      need_to_load_spec st.cache cmd a really_load ∧
    (need_to_load_spec st.cache cmd a really_load = false →
      autoload_effect.command_removed cmd ∉
        (locate_file_and_maybe_load_it st w cmd really_load reload pl).effects) := by
  rw [locate_dispatch_uncached st w cmd really_load reload pl h]
  unfold locate_uncached
  rw [hb]
  dsimp only
  obtain ⟨h1, h2, h3⟩ := path_search_found w cmd really_load
    (st.cache.get_node cmd).2 pl p a hfa
  constructor
  · rw [h2, need_to_load_spec_get_node]
  · intro hneed
    have hplaceholder :
        (!(path_search w cmd really_load (st.cache.get_node cmd).2 pl).found_file &&
          !(path_search w cmd really_load
              (st.cache.get_node cmd).2 pl).script_source.isSome) = false := by
      rw [h1]
      rfl
    rw [hplaceholder]
    have hInv0 : ((st.cache.get_node cmd).2).Inv := Inv_get_node cmd hInv
    have hmax0 : 0 < ((st.cache.get_node cmd).2).max_node_count := by
      rw [get_node_max]
      exact hmax
    have hneed0 : need_to_load_spec (st.cache.get_node cmd).2 cmd a really_load
        = false := by
      rw [need_to_load_spec_get_node]
      exact hneed
    have hps := path_search_no_cmd_removal w cmd really_load pl
      (st.cache.get_node cmd).2 p a hInv0 hmax0 hfa hneed0
    intro hmem
    simp only [if_false, Bool.false_eq_true, List.append_nil, List.mem_append] at hmem
    rcases hmem with hmem | hmem
    · exact hps hmem
    · by_cases hex : (really_load &&
          (path_search w cmd really_load
            (st.cache.get_node cmd).2 pl).script_source.isSome) = true
      · rw [if_pos hex] at hmem
        simp only [List.mem_singleton] at hmem
        exact autoload_effect.noConfusion hmem
      · rw [if_neg hex] at hmem
        simp at hmem

theorem locate_use_cached_absent (st : autoload_t) (w : world_t) (cmd : String)
    (rl reload : Bool)
    (hf : st.cache.nodes.find? (fun m => m.key == cmd) = none) :
    locate_use_cached st w cmd rl reload = false := by
  unfold locate_use_cached
  rw [get_node_fst, hf]

theorem locate_dispatch_not_cached (st : autoload_t) (w : world_t) (cmd : String)
    (rl reload : Bool) (pl : List String)
    (hu : locate_use_cached st w cmd rl reload = false) :
    locate_file_and_maybe_load_it st w cmd rl reload pl =
      locate_uncached st w cmd rl (st.cache.get_node cmd).2 pl := by
  unfold locate_file_and_maybe_load_it
  rw [hu]
  simp

theorem locate_miss_creates_placeholder (st : autoload_t) (w : world_t)
    (cmd : String) (pl : List String)
    (hInv : st.cache.Inv) (hmax : 0 < st.cache.max_node_count)
    (hb : find_matching_builtin st.builtin_scripts cmd = none)
    (hfa : first_accessible_candidate w cmd pl = none)
    (habs : cache_payload st.cache cmd = none) :
    cache_payload
        (locate_file_and_maybe_load_it st w cmd false false pl).st.cache cmd =
      some { access := { mod_time := 0, last_checked := w.now, accessible := false,
                         stale := false, error := 0 },
             is_loaded := false, is_placeholder := true } := by
  have hf : st.cache.nodes.find? (fun m => m.key == cmd) = none :=
    payload_none_find? habs
  have hfresh : cmd ∉ st.cache.node_set := by
    rw [hInv.2.2]
    intro hm
    exact (find?_none_iff_not_mem _ _).mp hf (List.mem_toFinset.mp hm)
  rw [locate_dispatch_not_cached st w cmd false false pl
    (locate_use_cached_absent st w cmd false false hf)]
  unfold locate_uncached
  rw [hb]
  dsimp only
  rw [get_node_none_snd st.cache cmd hf]
  rw [path_search_not_found w cmd false st.cache pl hfa]
  dsimp only
  rw [get_node_fst, hf, get_node_none_snd st.cache cmd hf]
  simp only [Option.isSome_none, Bool.not_false, Bool.and_self, Option.isNone_none,
    eq_self_iff_true, if_true, Bool.false_eq_true, if_false]
  rw [cache_payload_update_self]
  have hpay := add_without_eviction_fresh_payload st.cache
    ⟨cmd, { autoload_function_init with is_placeholder := true }⟩ hInv hfresh hmax
  rw [hpay]
  rfl

theorem update_node_node_set {α : Type} (c : lru_cache_impl_t α) (k : String)
    (f : α → α) : (c.update_node k f).node_set = c.node_set := rfl

/-- Claim C3 (amended): for probing resolutions (`really_load = false`, the
`can_load` path) the negative cache works as the claim states: after a first
resolution of an unknown command (no builtin match, no accessible file, no
prior entry) installs the placeholder, a second probing resolution within
the staleness interval is answered from that placeholder — it performs no
filesystem probe (no effect at all) and returns "not found", so the two
resolutions probe the filesystem only during the first.  A loading
resolution (`really_load = true`) does not use the placeholder and probes
again (see the counterexample). -/
theorem C3_negative_cache_probing (st : autoload_t) (w w2 : world_t)
    (cmd : String) (pl : List String)
    (hInv : st.cache.Inv) (hmax : 0 < st.cache.max_node_count)
    (hb : find_matching_builtin st.builtin_scripts cmd = none)
    (hfa : first_accessible_candidate w cmd pl = none)
    (habs : cache_payload st.cache cmd = none)
    (hwithin : w2.now - w.now ≤ kAutoloadStalenessInterval) :
    (locate_file_and_maybe_load_it
        (locate_file_and_maybe_load_it st w cmd false false pl).st
        w2 cmd false false pl).effects = [] ∧
    (locate_file_and_maybe_load_it
        (locate_file_and_maybe_load_it st w cmd false false pl).st
        w2 cmd false false pl).result = false := by
  have hpay := locate_miss_creates_placeholder st w cmd pl hInv hmax hb hfa habs
  obtain ⟨n2, hf2, hd2⟩ := payload_some_find? hpay
  obtain ⟨he2, hr2⟩ := locate_probe_cached
    (locate_file_and_maybe_load_it st w cmd false false pl).st w2 cmd pl n2 hf2
  refine ⟨he2, ?_⟩
  rw [hr2, hd2]

/-- Claim C3 witness: the amended theorem at a concrete unknown command with
one search directory and both resolutions at the same instant. -/
theorem C3_negative_cache_probing_witness :
    (locate_file_and_maybe_load_it
        (locate_file_and_maybe_load_it
          ⟨"fish_function_path", [], "p", [], ⟨8, 0, ∅, []⟩⟩
          ⟨100, fun _ => none, fun _ => 2, fun _ _ => false, fun _ => 13,
            fun s => s⟩
          "foo" false false ["d"]).st
        ⟨100, fun _ => none, fun _ => 2, fun _ _ => false, fun _ => 13,
          fun s => s⟩
        "foo" false false ["d"]).effects = [] ∧
    (locate_file_and_maybe_load_it
        (locate_file_and_maybe_load_it
          ⟨"fish_function_path", [], "p", [], ⟨8, 0, ∅, []⟩⟩
          ⟨100, fun _ => none, fun _ => 2, fun _ _ => false, fun _ => 13,
            fun s => s⟩
          "foo" false false ["d"]).st
        ⟨100, fun _ => none, fun _ => 2, fun _ _ => false, fun _ => 13,
          fun s => s⟩
        "foo" false false ["d"]).result = false :=
  C3_negative_cache_probing
    ⟨"fish_function_path", [], "p", [], ⟨8, 0, ∅, []⟩⟩
    ⟨100, fun _ => none, fun _ => 2, fun _ _ => false, fun _ => 13, fun s => s⟩
    ⟨100, fun _ => none, fun _ => 2, fun _ _ => false, fun _ => 13, fun s => s⟩
    "foo" ["d"] (by decide) (by decide) (by decide) (by decide) (by decide)
    (by decide)

/-- Claim C10: when resolution finds neither a builtin nor an accessible
file for `cmd` and an entry for `cmd` already exists, no new entry is
created and the existing entry is not replaced: the keyed index is
unchanged, the entry keeps its `is_placeholder`, `is_loaded`, recorded
accessibility and modification-time fields and only `access.last_checked`
is set to the current time, and every other key's payload is untouched. -/
theorem C10_not_found_frame (st : autoload_t) (w : world_t) (cmd : String)
    (really_load reload : Bool) (pl : List String) (e : autoload_function_t)
    (hInv : st.cache.Inv)
    (h : (locate_file_and_maybe_load_it st w cmd really_load reload pl).used_cache
      = false)
    (hb : find_matching_builtin st.builtin_scripts cmd = none)
    (hfa : first_accessible_candidate w cmd pl = none)
    (he : cache_payload st.cache cmd = some e) :
    (locate_file_and_maybe_load_it st w cmd really_load reload pl).st.cache.node_set
      = st.cache.node_set ∧
    cache_payload
        (locate_file_and_maybe_load_it st w cmd really_load reload pl).st.cache cmd
      = some { e with access := { e.access with last_checked := w.now } } ∧
    (∀ k, k ≠ cmd →
      cache_payload
          (locate_file_and_maybe_load_it st w cmd really_load reload pl).st.cache k
        = cache_payload st.cache k) := by
  rw [locate_dispatch_uncached st w cmd really_load reload pl h]
  unfold locate_uncached
  rw [hb]
  dsimp only
  rw [path_search_not_found w cmd really_load (st.cache.get_node cmd).2 pl hfa]
  dsimp only
  have hpay0 : cache_payload (st.cache.get_node cmd).2 cmd = some e := by
    rw [cache_payload_get_node]
    exact he
  obtain ⟨n2, hf2, hd2⟩ := payload_some_find? hpay0
  rw [get_node_fst, hf2]
  simp only [Option.isSome_none, Bool.not_false, Bool.and_self, Option.isNone_some,
    eq_self_iff_true, if_true, Bool.false_eq_true, if_false]
  refine ⟨?_, ?_, ?_⟩
  · rw [update_node_node_set, get_node_node_set, get_node_node_set]
  · rw [cache_payload_update_self, cache_payload_get_node, cache_payload_get_node, he]
    rfl
  · intro k hk
    rw [cache_payload_update_other _ _ _ hk, cache_payload_get_node,
      cache_payload_get_node]

/-- Claim C5 witness: the reload-condition theorem at a concrete empty cache
with an accessible candidate file. -/
theorem C5_reload_condition_witness :
    (locate_file_and_maybe_load_it
        ⟨"fish_function_path", [], "p", [], ⟨8, 0, ∅, []⟩⟩
        ⟨100, fun _ => some 7, fun _ => 2, fun _ _ => true, fun _ => 13,
          fun s => s⟩
        "f" false false ["d"]).reloaded =
      need_to_load_spec (⟨8, 0, ∅, []⟩ : lru_cache_impl_t autoload_function_t)
        "f" ⟨7, 100, true, false, 0⟩ false ∧
    (need_to_load_spec (⟨8, 0, ∅, []⟩ : lru_cache_impl_t autoload_function_t)
        "f" ⟨7, 100, true, false, 0⟩ false = false →
      autoload_effect.command_removed "f" ∉
        (locate_file_and_maybe_load_it
          ⟨"fish_function_path", [], "p", [], ⟨8, 0, ∅, []⟩⟩
          ⟨100, fun _ => some 7, fun _ => 2, fun _ _ => true, fun _ => 13,
            fun s => s⟩
          "f" false false ["d"]).effects) :=
  C5_reload_condition
    ⟨"fish_function_path", [], "p", [], ⟨8, 0, ∅, []⟩⟩
    ⟨100, fun _ => some 7, fun _ => 2, fun _ _ => true, fun _ => 13, fun s => s⟩
    "f" false false ["d"] "d/f.fish" ⟨7, 100, true, false, 0⟩
    (by decide) (by decide) (by decide) (by decide) (by decide)

/-- Claim C10 witness: the frame theorem at a concrete placeholder entry and
an inaccessible filesystem. -/
theorem C10_not_found_frame_witness :
    (locate_file_and_maybe_load_it
        ⟨"fish_function_path", [], "p", [],
          ⟨8, 1, {"f"}, [⟨"f", ⟨⟨0, 0, false, false, 0⟩, false, true⟩⟩]⟩⟩
        ⟨100, fun _ => none, fun _ => 2, fun _ _ => false, fun _ => 13,
          fun s => s⟩
        "f" true false ["d"]).st.cache.node_set =
      ({"f"} : Finset String) ∧
    cache_payload
        (locate_file_and_maybe_load_it
          ⟨"fish_function_path", [], "p", [],
            ⟨8, 1, {"f"}, [⟨"f", ⟨⟨0, 0, false, false, 0⟩, false, true⟩⟩]⟩⟩
          ⟨100, fun _ => none, fun _ => 2, fun _ _ => false, fun _ => 13,
            fun s => s⟩
          "f" true false ["d"]).st.cache "f" =
      some ⟨⟨0, 100, false, false, 0⟩, false, true⟩ := by
  have h := C10_not_found_frame
    ⟨"fish_function_path", [], "p", [],
      ⟨8, 1, {"f"}, [⟨"f", ⟨⟨0, 0, false, false, 0⟩, false, true⟩⟩]⟩⟩
    ⟨100, fun _ => none, fun _ => 2, fun _ _ => false, fun _ => 13, fun s => s⟩
    "f" true false ["d"] ⟨⟨0, 0, false, false, 0⟩, false, true⟩
    (by decide) (by decide) (by decide) (by decide) (by decide)
  exact ⟨h.1, h.2.1⟩

/-- Claim C8: a `load(cmd)` call that reaches the recursion guard while
`cmd` is already in the in-progress set — the re-entrant resolution
triggered by loading `cmd`'s own script — emits the circular-dependency
diagnostic and returns success (1) immediately: it performs no filesystem
probe, no script execution and no cache insertion (no key is added; the only
cache activity is the path-change eviction that precedes the guard), and the
guard set itself is unchanged, so a self-triggering load terminates instead
of recursing unboundedly. -/
theorem C8_circular_guard (st : autoload_t) (w : world_t)
    (env_get : String → String) (tokenize : String → List String)
    (cmd : String) (reload : Bool)
    (hpath : ¬ env_get st.env_var_name = "")
    (hload : st.is_loading_set.contains cmd = true) :
    (autoload_t.load st w false env_get tokenize cmd reload).1 = 1 ∧
    autoload_effect.debug_circular cmd ∈
      (autoload_t.load st w false env_get tokenize cmd reload).2.2 ∧
    (∀ p, autoload_effect.probe p ∉
      (autoload_t.load st w false env_get tokenize cmd reload).2.2) ∧
    (∀ s, autoload_effect.exec_subshell s ∉
      (autoload_t.load st w false env_get tokenize cmd reload).2.2) ∧
    (autoload_t.load st w false env_get tokenize cmd reload).2.1.cache.node_set ⊆
      st.cache.node_set ∧
    (autoload_t.load st w false env_get tokenize cmd reload).2.1.is_loading_set =
      st.is_loading_set := by
  simp only [autoload_t.load]
  rw [if_neg (show ¬(false = true) by simp), if_neg hpath]
  by_cases hch : env_get st.env_var_name ≠ st.path
  · rw [if_pos hch]
    dsimp only
    rw [if_pos (show ({ st with
        path := env_get st.env_var_name,
        cache := (st.cache.evict_all_nodes).1 } : autoload_t).is_loading cmd = true
      from hload)]
    refine ⟨rfl, ?_, ?_, ?_, ?_, rfl⟩
    · exact List.mem_append_right _ (List.mem_singleton.mpr rfl)
    · intro p hp
      rcases List.mem_append.mp hp with hp | hp
      · obtain ⟨n, _, hx⟩ := mem_autoload_evicted_effects hp
        exact autoload_effect.noConfusion hx
      · rcases List.mem_singleton.mp hp with h
        exact autoload_effect.noConfusion h
    · intro s hs
      rcases List.mem_append.mp hs with hs | hs
      · obtain ⟨n, _, hx⟩ := mem_autoload_evicted_effects hs
        exact autoload_effect.noConfusion hx
      · rcases List.mem_singleton.mp hs with h
        exact autoload_effect.noConfusion h
    · exact evict_all_node_set_sub st.cache
  · rw [if_neg hch]
    dsimp only
    rw [if_pos (show st.is_loading cmd = true from hload)]
    refine ⟨rfl, ?_, ?_, ?_, ?_, rfl⟩
    · exact List.mem_append_right _ (List.mem_singleton.mpr rfl)
    · intro p hp
      rcases List.mem_append.mp hp with hp | hp
      · simp at hp
      · rcases List.mem_singleton.mp hp with h
        exact autoload_effect.noConfusion h
    · intro s hs
      rcases List.mem_append.mp hs with hs | hs
      · simp at hs
      · rcases List.mem_singleton.mp hs with h
        exact autoload_effect.noConfusion h
    · exact Finset.Subset.refl _

/-- Claim C8 witness: the circular-guard theorem at a concrete state whose
in-progress set already holds the command. -/
theorem C8_circular_guard_witness :
    (autoload_t.load ⟨"fish_function_path", [], "p", ["f"], ⟨8, 0, ∅, []⟩⟩
        ⟨100, fun _ => none, fun _ => 2, fun _ _ => false, fun _ => 13,
          fun s => s⟩
        false (fun _ => "p") (fun _ => ["d"]) "f" false).1 = 1 ∧
    autoload_effect.debug_circular "f" ∈
      (autoload_t.load ⟨"fish_function_path", [], "p", ["f"], ⟨8, 0, ∅, []⟩⟩
        ⟨100, fun _ => none, fun _ => 2, fun _ _ => false, fun _ => 13,
          fun s => s⟩
        false (fun _ => "p") (fun _ => ["d"]) "f" false).2.2 := by
  have h := C8_circular_guard
    ⟨"fish_function_path", [], "p", ["f"], ⟨8, 0, ∅, []⟩⟩
    ⟨100, fun _ => none, fun _ => 2, fun _ _ => false, fun _ => 13, fun s => s⟩
    (fun _ => "p") (fun _ => ["d"]) "f" false (by decide) (by decide)
  exact ⟨h.1, h.2.1⟩
